import Mathlib

/-!
Verification of the log-structured key/value store engine
(`src/engines/kv.rs`, `src/engines/sled.rs`) against its specification.

The development shallowly embeds the storage engine: log files are lists of
bytes (naturals), the in-memory index is an association list from keys to
record locations, and each engine operation is a pure state transformer
mirroring the Rust source line by line.  The prost-generated record codec and
the crc32fast hash live outside `src/`; they are modelled from the spec
(field-tagged varint-friendly encoding, CRC32 over the payload bytes) with
the roundtrip property the spec demands.
-/

/-- Compaction threshold from the source: `COMPACTION_THRESHOLD = 1024 * 1024`. -/
def COMPACTION_THRESHOLD : Nat := 1024 * 1024

/-- Schema version from the source: `CURRENT_SCHEMA_VERSION = 1`. -/
def CURRENT_SCHEMA_VERSION : Nat := 1

/-- Little-endian byte representation of a natural, `w` bytes wide, value
taken modulo `256 ^ w` exactly as Rust's `as u32`-then-`to_le_bytes` does. -/
def toLE : Nat → Nat → List Nat
  | 0, _ => []
  | w + 1, n => n % 256 :: toLE w (n / 256)

/-- Little-endian byte list decoded back to a natural
(`u32::from_le_bytes` on 4-byte lists). -/
def fromLE : List Nat → Nat
  | [] => 0
  | b :: rest => b + 256 * fromLE rest

/-- Worker for the varint encoder, structurally recursive on a fuel bound
that always dominates the digit count. -/
def varintAux : Nat → Nat → List Nat
  | 0, n => [n]
  | fuel + 1, n =>
    if n < 128 then [n]
    else (n % 128 + 128) :: varintAux fuel (n / 128)

/-- Modelled from the spec: varint encoding of an unsigned integer field, as
used by the prost-generated record codec (`kvs_command.rs` is generated from
`src/protos/kvs_command.proto`, which is not part of the sources). -/
def varint (n : Nat) : List Nat := varintAux n n

/-- Modelled from the spec: varint decoding, returning the value and the
remaining bytes. -/
def varintDec : List Nat → Option (Nat × List Nat)
  | [] => none
  | b :: rest =>
    if b < 128 then some (b, rest)
    else
      match varintDec rest with
      | some (m, r) => some (b - 128 + 128 * m, r)
      | none => none

/-- Byte view of a string: the source hashes and encodes `key.as_bytes()`;
bytes are modelled as the list of character codepoints (a monoid
homomorphism on strings, which is all the claims use). -/
def strBytes (s : String) : List Nat := s.data.map Char.toNat

/-- Modelled from the spec: length-prefixed string field encoding of the
record codec. -/
def encStr (s : String) : List Nat := varint (strBytes s).length ++ strBytes s

/-- Modelled from the spec: string field decoding. -/
def decStr (l : List Nat) : Option (String × List Nat) :=
  match varintDec l with
  | none => none
  | some (n, rest) =>
    if n ≤ rest.length then
      some (String.mk ((rest.take n).map Char.ofNat), rest.drop n)
    else none

/-- Payload of a Set record (`KvsSet` in the generated protobuf code; the
source constructs it with `key_size` and `value_size` both zero). -/
structure KvsSet where
  key : String
  value : String
  key_size : Nat
  value_size : Nat
deriving DecidableEq, Repr

/-- Payload of a Remove record (`KvsRemove` in the generated protobuf code). -/
structure KvsRemove where
  key : String
  key_size : Nat
deriving DecidableEq, Repr

/-- Tagged union of record payloads (`kvs_command::Command`). -/
inductive Command where
  | Set (s : KvsSet)
  | Remove (r : KvsRemove)
deriving DecidableEq, Repr

/-- Log record (`KvsCommand`): schema version, sequence number, timestamp,
payload checksum and the optional tagged union. -/
structure KvsCommand where
  timestamp : Nat
  sequence_number : Nat
  checksum : Nat
  version : Nat
  command : Option Command
deriving DecidableEq, Repr

/-- Modelled from the spec: CRC32 over a byte list (the source delegates to
the external `crc32fast` crate; the claims only use that the same function
is applied on write and on verify), truncated to 32 bits. -/
def crc32 (l : List Nat) : Nat :=
  l.foldl (fun h b => (h * 131 + b + 1) % 4294967296) 5381

/-- Checksum input bytes, mirroring `Checksumable::get_fields_for_checksum`:
key bytes then, for Set, value bytes. -/
def get_fields_for_checksum : Command → List Nat
  | .Set s => strBytes s.key ++ strBytes s.value
  | .Remove r => strBytes r.key

/-- CRC of the checksum fields, mirroring `Checksumable::calculate_checksum`. -/
def calculate_checksum (c : Command) : Nat :=
  crc32 (get_fields_for_checksum c)

/-- Checksum verification, mirroring `KvsCommand::verify_checksum`: an absent
command makes verification fail. -/
def KvsCommand.verify_checksum (c : KvsCommand) : Bool :=
  match c.command with
  | some cmd => c.checksum == calculate_checksum cmd
  | none => false

/-- Constructor for a Set record, mirroring `KvsCommand::set`; the wall-clock
timestamp is passed explicitly. -/
def KvsCommand.set (key value : String) (sequence ts : Nat) : KvsCommand :=
  let command := Command.Set ⟨key, value, 0, 0⟩
  { timestamp := ts
    sequence_number := sequence
    checksum := calculate_checksum command
    version := CURRENT_SCHEMA_VERSION
    command := some command }

/-- Constructor for a Remove record, mirroring `KvsCommand::remove`. -/
def KvsCommand.remove (key : String) (sequence ts : Nat) : KvsCommand :=
  let command := Command.Remove ⟨key, 0⟩
  { timestamp := ts
    sequence_number := sequence
    checksum := calculate_checksum command
    version := CURRENT_SCHEMA_VERSION
    command := some command }

/-- Modelled from the spec: record encoding of the prost codec — varint
numeric fields followed by a payload tag and length-prefixed strings. -/
def encodeCmd (c : KvsCommand) : List Nat :=
  varint c.timestamp ++ varint c.sequence_number ++ varint c.checksum ++
    varint c.version ++
    match c.command with
    | none => [0]
    | some (.Set s) => 1 :: (encStr s.key ++ encStr s.value ++ varint s.key_size ++ varint s.value_size)
    | some (.Remove r) => 2 :: (encStr r.key ++ varint r.key_size)

/-- Modelled from the spec: record decoding (`KvsCommand::decode`), requiring
the whole byte list to be consumed. -/
def decodeCmd (l : List Nat) : Option KvsCommand :=
  match varintDec l with
  | none => none
  | some (ts, l) =>
  match varintDec l with
  | none => none
  | some (seq, l) =>
  match varintDec l with
  | none => none
  | some (ck, l) =>
  match varintDec l with
  | none => none
  | some (ver, l) =>
  match l with
  | 0 :: rest =>
    match rest with
    | [] => some ⟨ts, seq, ck, ver, none⟩
    | _ => none
  | 1 :: rest =>
    (match decStr rest with
    | none => none
    | some (k, rest) =>
    match decStr rest with
    | none => none
    | some (v, rest) =>
    match varintDec rest with
    | none => none
    | some (ks, rest) =>
    match varintDec rest with
    | none => none
    | some (vs, rest) =>
    match rest with
    | [] => some ⟨ts, seq, ck, ver, some (.Set ⟨k, v, ks, vs⟩)⟩
    | _ => none)
  | 2 :: rest =>
    (match decStr rest with
    | none => none
    | some (k, rest) =>
    match varintDec rest with
    | none => none
    | some (ks, rest) =>
    match rest with
    | [] => some ⟨ts, seq, ck, ver, some (.Remove ⟨k, ks⟩)⟩
    | _ => none)
  | _ => none

/-- Location of a record in the log set (`CommandPos`; the source spells the
generation field `geneeration`). -/
structure CommandPos where
  geneeration : Nat
  pos : Nat
  len : Nat
deriving DecidableEq, Repr

/-- In-memory index: association list from keys to record locations.  The
source uses a key-sorted concurrent map (`SkipMap` / `BTreeMap`); no claim
depends on iteration order, so insertion order is kept instead. -/
abbrev Index := List (String × CommandPos)

/-- Index lookup (`index.get` in the source). -/
def idxLookup : Index → String → Option CommandPos
  | [], _ => none
  | (k, cp) :: rest, key => if k = key then some cp else idxLookup rest key

/-- Index insertion returning the superseded entry (`index.insert`). -/
def idxInsert : Index → String → CommandPos → Index × Option CommandPos
  | [], key, cp => ([(key, cp)], none)
  | (k, old) :: rest, key, cp =>
    if k = key then ((key, cp) :: rest, some old)
    else
      let r := idxInsert rest key cp
      ((k, old) :: r.1, r.2)

/-- Index removal returning the removed entry (`index.remove`). -/
def idxRemove : Index → String → Index × Option CommandPos
  | [], _ => ([], none)
  | (k, old) :: rest, key =>
    if k = key then (rest, some old)
    else
      let r := idxRemove rest key
      ((k, old) :: r.1, r.2)

/-- Directory of log files: association list from generation numbers to the
byte contents of `<generation>.log`. -/
abbrev GenFiles := List (Nat × List Nat)

/-- Lookup of a generation's file contents. -/
def genLookup : GenFiles → Nat → Option (List Nat)
  | [], _ => none
  | (g, f) :: rest, gen => if g = gen then some f else genLookup rest gen

/-- Contents of a generation's log file; a missing file reads as empty. -/
def fileOf (files : GenFiles) (gen : Nat) : List Nat :=
  (genLookup files gen).getD []

/-- Replace (or create) the contents of a generation's log file. -/
def genSet : GenFiles → Nat → List Nat → GenFiles
  | [], gen, f => [(gen, f)]
  | (g, old) :: rest, gen, f =>
    if g = gen then (gen, f) :: rest
    else (g, old) :: genSet rest gen f

/-- Sub-list of `l` of length `n` starting at byte offset `p`. -/
def byteSlice (l : List Nat) (p n : Nat) : List Nat := (l.drop p).take n

/-- Read the framed record starting at offset `p`: a 4-byte little-endian
length prefix followed by that many message bytes.  Returns the message
bytes when the frame lies entirely within the file. -/
def frameAt (l : List Nat) (p : Nat) : Option (List Nat) :=
  if p + 4 ≤ l.length ∧ p + 4 + fromLE (byteSlice l p 4) ≤ l.length then
    some (byteSlice l (p + 4) (fromLE (byteSlice l p 4)))
  else none

/-- Engine error type (`KvsError`); payload details of I/O and decode errors
are not modelled. -/
inductive KvsError where
  | IoError
  | KeyNotFound
  | UnexpectedCommandType
  | Deserialize
  | CorruptedData
  | StringError
deriving DecidableEq, Repr

/-- Engine state: log files on disk, the in-memory index, the writer state
(`current_generation`, `uncompacted`, `current_sequence`), the published
`safe_point`, and per-generation reader cursor positions. -/
structure KvState where
  files : GenFiles
  index : Index
  current_generation : Nat
  uncompacted : Nat
  current_sequence : Option Nat
  safe_point : Nat
  readerPos : Nat → Nat

/-- Pointwise update of a reader cursor map. -/
def posUpd (f : Nat → Nat) (g v : Nat) : Nat → Nat :=
  fun x => if x = g then v else f x

/-- Body of `KvStoreWriter::compact`'s copy loop: for each index entry read
the 4-byte length prefix and the message bytes at the recorded location and
append both verbatim to the compaction file, staging an index update to the
new location.  Read failures surface as I/O errors exactly where the
source's `read_exact` calls use `?`. -/
def compactLoop (compGen : Nat) (files : GenFiles) :
    Index → Nat → List Nat → Index →
    Except KvsError (List Nat × Index)
  | [], _, acc, upd => .ok (acc, upd)
  | (key, cp) :: rest, new_pos, acc, upd =>
    let file := fileOf files cp.geneeration
    if cp.pos + 4 ≤ file.length then
      let len_bytes := byteSlice file cp.pos 4
      let msg_len := fromLE len_bytes
      if cp.pos + 4 + msg_len ≤ file.length then
        let msg_bytes := byteSlice file (cp.pos + 4) msg_len
        compactLoop compGen files rest (new_pos + 4 + msg_len)
          (acc ++ len_bytes ++ msg_bytes)
          (upd ++ [(key, ⟨compGen, new_pos, 4 + msg_len⟩)])
      else .error .IoError
    else .error .IoError

/-- Compaction (`KvStoreWriter::compact`): reserve the compaction generation,
advance the current generation by two, copy every index entry's record bytes
verbatim into the compaction file, apply the staged index updates, publish
the safe point, delete stale generations and reset `uncompacted`.  The
source deletes exactly the generations with cached readers, all of which are
below the compaction generation; deletion is modelled as dropping every
generation below it.  On a read failure the source has already advanced the
generation counter and opened the new files; the staged index updates,
deletions and counter reset have not happened. -/
def compactOp (s : KvState) : KvState × Option KvsError :=
  let compGen := s.current_generation + 1
  let curGen := s.current_generation + 2
  let files0 := genSet (genSet s.files curGen (fileOf s.files curGen)) compGen (fileOf s.files compGen)
  match compactLoop compGen files0 s.index 0 [] [] with
  | .error e => ({ s with files := files0, current_generation := curGen }, some e)
  | .ok (bytes, upd) =>
    let files1 := genSet files0 compGen (fileOf files0 compGen ++ bytes)
    let index1 := upd.foldl (fun ix p => (idxInsert ix p.1 p.2).1) s.index
    let files2 := files1.filter (fun p => ¬ p.1 < compGen)
    ({ s with
        files := files2
        index := index1
        current_generation := curGen
        safe_point := compGen
        uncompacted := 0 }, none)

/-- Write path of `KvStoreWriter::set`: stamp the next sequence number,
append the length-prefixed encoded Set record to the current generation's
log, insert the index entry (crediting any superseded entry's length to
`uncompacted`) and compact when over the threshold.  The wall-clock
timestamp is passed explicitly. -/
def setOp (s : KvState) (key value : String) (ts : Nat) : KvState × Option KvsError :=
  let sequence := s.current_sequence.getD 0 + 1
  let cmd := KvsCommand.set key value sequence ts
  let file := fileOf s.files s.current_generation
  let pos := file.length
  let cmd_bytes := encodeCmd cmd
  let frame := toLE 4 cmd_bytes.length ++ cmd_bytes
  let files1 := genSet s.files s.current_generation (file ++ frame)
  let ins := idxInsert s.index key ⟨s.current_generation, pos, frame.length⟩
  let uncompacted1 := s.uncompacted + (ins.2.elim 0 (·.len))
  let s1 := { s with
      files := files1
      index := ins.1
      uncompacted := uncompacted1
      current_sequence := some sequence }
  if COMPACTION_THRESHOLD < uncompacted1 then compactOp s1 else (s1, none)

/-- Write path of `KvStoreWriter::remove`: an absent key fails with
`KeyNotFound` before anything is written; otherwise a Remove record is
appended, the index entry dropped, and only the superseded entry's length is
added to `uncompacted` (the length of the Remove record itself is not). -/
def removeOp (s : KvState) (key : String) (ts : Nat) : KvState × Option KvsError :=
  match idxLookup s.index key with
  | none => (s, some .KeyNotFound)
  | some _ =>
    let sequence := s.current_sequence.getD 0 + 1
    let cmd := KvsCommand.remove key sequence ts
    let file := fileOf s.files s.current_generation
    let cmd_bytes := encodeCmd cmd
    let frame := toLE 4 cmd_bytes.length ++ cmd_bytes
    let files1 := genSet s.files s.current_generation (file ++ frame)
    let rem := idxRemove s.index key
    let uncompacted1 := s.uncompacted + (rem.2.elim 0 (·.len))
    let s1 := { s with
        files := files1
        index := rem.1
        uncompacted := uncompacted1
        current_sequence := some sequence }
    if COMPACTION_THRESHOLD < uncompacted1 then compactOp s1 else (s1, none)

/-- Read path of `KvStore::get`: look the key up in the index; seek the
generation's reader to the recorded offset, read the 4-byte length prefix
and the message bytes, decode, verify the checksum, and extract a Set
payload.  Only the reader cursor of the touched generation moves; a failed
`read_exact` leaves the cursor at end of file. -/
def getOp (s : KvState) (key : String) : Except KvsError (Option String) × KvState :=
  match idxLookup s.index key with
  | none => (.ok none, s)
  | some cp =>
    let file := fileOf s.files cp.geneeration
    if file.length < cp.pos + 4 then
      (.error .IoError, { s with readerPos := posUpd s.readerPos cp.geneeration file.length })
    else
      let msg_len := fromLE (byteSlice file cp.pos 4)
      if file.length < cp.pos + 4 + msg_len then
        (.error .IoError, { s with readerPos := posUpd s.readerPos cp.geneeration file.length })
      else
        let msg_bytes := byteSlice file (cp.pos + 4) msg_len
        let s1 := { s with readerPos := posUpd s.readerPos cp.geneeration (cp.pos + 4 + msg_len) }
        match decodeCmd msg_bytes with
        | none => (.error .Deserialize, s1)
        | some cmd =>
          if cmd.verify_checksum then
            match cmd.command with
            | some (.Set st) => (.ok (some st.value), s1)
            | some (.Remove _) => (.error .UnexpectedCommandType, s1)
            | none => (.ok none, s1)
          else (.error .CorruptedData, s1)

/-- Replay of one log file (`load_v2`): repeatedly read a 4-byte length
prefix and that many message bytes, decode, verify the checksum, and update
the index, crediting superseded entries (and, for Remove, the Remove record
itself) to the stale-byte count while tracking the highest sequence number.
An `UnexpectedEof` from the first `read_exact` — including one that consumed
a partial 1–3 byte prefix — breaks the loop as if at a clean end of file. -/
def load_v2 (geneeration : Nat) (rem : List Nat) (pos : Nat) (index : Index)
    (uncompacted highest_sequence : Nat) : Except KvsError (Index × Nat × Nat) :=
  if rem.length < 4 then .ok (index, uncompacted, highest_sequence)
  else
    let len_bytes := rem.take 4
    let msg_len := fromLE len_bytes
    if (rem.drop 4).length < msg_len then .error .IoError
    else
      let msg_bytes := (rem.drop 4).take msg_len
      match decodeCmd msg_bytes with
      | none => .error .Deserialize
      | some cmd =>
        if cmd.verify_checksum = false then .error .CorruptedData
        else
          let highest1 := max highest_sequence cmd.sequence_number
          match cmd.command with
          | some (.Set st) =>
            let ins := idxInsert index st.key ⟨geneeration, pos, 4 + msg_len⟩
            load_v2 geneeration ((rem.drop 4).drop msg_len) (pos + 4 + msg_len)
              ins.1 (uncompacted + ins.2.elim 0 (·.len)) highest1
          | some (.Remove r) =>
            let rm := idxRemove index r.key
            load_v2 geneeration ((rem.drop 4).drop msg_len) (pos + 4 + msg_len)
              rm.1 (uncompacted + rm.2.elim 0 (·.len) + (4 + msg_len)) highest1
          | none => .error .UnexpectedCommandType
termination_by rem.length
decreasing_by
  all_goals simp only [List.length_drop]; omega

/-- Replay of every generation in order during `KvStore::open`, accumulating
the index, the stale-byte count and the highest sequence number. -/
def loadAll : GenFiles → Index → Nat → Nat → Except KvsError (Index × Nat × Nat)
  | [], ix, unc, hi => .ok (ix, unc, hi)
  | (g, f) :: rest, ix, unc, hi =>
    match load_v2 g f 0 ix 0 0 with
    | .error e => .error e
    | .ok (ix1, uncompat, seq) => loadAll rest ix1 (unc + uncompat) (max hi seq)

/-- Recovery (`KvStore::open`): the directory is modelled as the sorted list
of `<generation>.log` files with their contents.  Replay all generations,
open a fresh generation one beyond the highest for append, and seed the
sequence counter with the recovered maximum.  Reader cursors of replayed
files sit at end of file. -/
def openStore (dir : GenFiles) : Except KvsError KvState :=
  match loadAll dir [] 0 0 with
  | .error e => .error e
  | .ok (ix, unc, hi) =>
    let current_geneeration := ((dir.map Prod.fst).getLast?.getD 0) + 1
    .ok { files := genSet dir current_geneeration (fileOf dir current_geneeration)
          index := ix
          current_generation := current_geneeration
          uncompacted := unc
          current_sequence := some hi
          safe_point := 0
          readerPos := fun g => (fileOf dir g).length }

/-- Write operations driven against one engine instance; the wall-clock
timestamp of each record is part of the operation. -/
inductive WriteOp where
  | set (key value : String) (ts : Nat)
  | remove (key : String) (ts : Nat)
deriving DecidableEq, Repr

/-- Key an operation touches. -/
def opKey : WriteOp → String
  | .set k _ _ => k
  | .remove k _ => k

/-- Dispatch of one write operation. -/
def applyOp (s : KvState) : WriteOp → KvState × Option KvsError
  | .set k v ts => setOp s k v ts
  | .remove k ts => removeOp s k ts

/-- State after a sequence of write operations. -/
def execOps (s : KvState) (ops : List WriteOp) : KvState :=
  ops.foldl (fun s op => (applyOp s op).1) s

/-- Whether an operation writes a record from state `s`: a set always does,
a remove only when the key is present (`contains_key` guards the write). -/
def stamped (s : KvState) : WriteOp → Bool
  | .set _ _ _ => true
  | .remove k _ => (idxLookup s.index k).isSome

/-- Sequence numbers stamped on the records written by a run of operations,
in write order. -/
def runStamps : KvState → List WriteOp → List Nat
  | _, [] => []
  | s, op :: rest =>
    let s1 := (applyOp s op).1
    if stamped s op then (s.current_sequence.getD 0 + 1) :: runStamps s1 rest
    else runStamps s1 rest

/-- Record a live index entry points at, when its frame reads and decodes. -/
def entryCmd (files : GenFiles) (cp : CommandPos) : Option KvsCommand :=
  (frameAt (fileOf files cp.geneeration) cp.pos).bind decodeCmd

/-- Well-formedness of one index entry: its location holds a complete frame
whose record decodes to a checksum-valid Set of exactly this key, and the
recorded length is the frame length. -/
def goodEntry (files : GenFiles) (key : String) (cp : CommandPos) : Bool :=
  match frameAt (fileOf files cp.geneeration) cp.pos with
  | none => false
  | some b =>
    match decodeCmd b with
    | none => false
    | some c =>
      (match c.command with
       | some (.Set st) => st.key == key
       | _ => false) && c.verify_checksum && (cp.len == 4 + b.length)

/-- Store invariant: index keys are distinct, no log file lives beyond the
current generation, and every index entry points at a valid Set record. -/
def StoreInv (s : KvState) : Prop :=
  (s.index.map Prod.fst).Nodup ∧
  (∀ p ∈ s.files, p.1 ≤ s.current_generation) ∧
  (∀ p ∈ s.index, goodEntry s.files p.1 p.2 = true)

/-- Value the store currently holds for a key, read through the index. -/
def liveValue (s : KvState) (key : String) : Option String :=
  match idxLookup s.index key with
  | none => none
  | some cp =>
    match entryCmd s.files cp with
    | some c =>
      match c.command with
      | some (.Set st) => some st.value
      | _ => none
    | none => none

/-- State of the alternative engine: the sled database is modelled from the
spec as a plain map from keys to values (the sled crate is external). -/
abbrev SledDb := String → Option String

/-- Modelled from the spec: sled's `Db::remove` deletes the key and returns
the value previously stored under it, if any. -/
def sledDbRemove (db : SledDb) (key : String) : Option String × SledDb :=
  (db key, fun k => if k = key then none else db k)

/-- Modelled from the spec: sled's `Db::insert` stores the value and returns
the superseded one, if any. -/
def sledDbInsert (db : SledDb) (key value : String) : Option String × SledDb :=
  (db key, fun k => if k = key then some value else db k)

/-- The adapter's `SledKvsEngine::remove`: the old value that sled returns is
discarded, the database is flushed, and `Ok(())` is returned regardless of
whether the key was present. -/
def sledRemove (db : SledDb) (key : String) : Except KvsError Unit × SledDb :=
  let r := sledDbRemove db key
  (.ok (), r.2)

/-- The adapter's `SledKvsEngine::set`. -/
def sledSet (db : SledDb) (key value : String) : Except KvsError Unit × SledDb :=
  let r := sledDbInsert db key value
  (.ok (), r.2)

/-- The adapter's `SledKvsEngine::get`. -/
def sledGet (db : SledDb) (key : String) : Except KvsError (Option String) :=
  match db key with
  | some v => .ok (some v)
  | none => .ok none

/-- Empty sled database. -/
def sledEmpty : SledDb := fun _ => none

/-- Store state produced by opening an empty directory. -/
def emptyStore : KvState :=
  { files := [(1, [])]
    index := []
    current_generation := 1
    uncompacted := 0
    current_sequence := some 0
    safe_point := 0
    readerPos := fun _ => 0 }

/-- Decidable equality of results. -/
instance {ε : Type u} {α : Type v} [DecidableEq ε] [DecidableEq α] :
    DecidableEq (Except ε α) := fun x y =>
  match x, y with
  | .ok a, .ok b => decidable_of_iff (a = b) (by simp)
  | .error a, .error b => decidable_of_iff (a = b) (by simp)
  | .ok _, .error _ => isFalse (by simp)
  | .error _, .ok _ => isFalse (by simp)

/-- Decidability of the store invariant, for concrete witnesses. -/
instance (s : KvState) : Decidable (StoreInv s) := by
  unfold StoreInv
  infer_instance

/-- Record bytes whose tagged union is empty (`command = None`); the record
as such decodes fine. -/
def emptyCmdBytes : List Nat := encodeCmd ⟨0, 1, 0, 1, none⟩

/-- Store whose single index entry points at a record with an empty tagged
union. -/
def emptyCmdStore : KvState :=
  { files := [(1, toLE 4 emptyCmdBytes.length ++ emptyCmdBytes)]
    index := [("k", ⟨1, 0, 4 + emptyCmdBytes.length⟩)]
    current_generation := 2
    uncompacted := 0
    current_sequence := some 1
    safe_point := 0
    readerPos := fun _ => 0 }

/-- Store holding one key, for concrete witnesses. -/
def store1 : KvState := (setOp emptyStore "k" "v" 0).1

/-- Complete frame carrying a record: a 4-byte length prefix whose value is
the message length, followed by message bytes that decode to the
checksum-valid record. -/
def FrameFor (c : KvsCommand) (f : List Nat) : Prop :=
  ∃ pre msg, f = pre ++ msg ∧ pre.length = 4 ∧ fromLE pre = msg.length ∧
    decodeCmd msg = some c ∧ c.verify_checksum = true

/-- Decomposition of a log file into complete checksum-valid frames followed
by a fragment shorter than a length prefix. -/
def ParsesTo (f : List Nat) (cs : List KvsCommand) : Prop :=
  ∃ frames trailing, f = frames.flatten ++ trailing ∧ trailing.length < 4 ∧
    List.Forall₂ FrameFor cs frames

/-- File contents made purely of complete valid frames holding Set records. -/
def AllSetFrames (l : List Nat) : Prop :=
  ∃ cs frames, l = List.flatten frames ∧ List.Forall₂ FrameFor cs frames ∧
    ∀ c ∈ cs, ∃ st, c.command = some (Command.Set st)

/-- Size bound on one operation's payload, under which its encoded record
always fits the 32-bit frame length prefix. -/
def opSmall : WriteOp → Prop
  | .set k v ts => ts < 2 ^ 64 ∧ (strBytes k).length + (strBytes v).length < 2 ^ 31
  | .remove k ts => ts < 2 ^ 64 ∧ (strBytes k).length < 2 ^ 31

/-- Decidability of the payload size bound. -/
instance : ∀ op : WriteOp, Decidable (opSmall op) := fun op => by
  cases op <;> (unfold opSmall; infer_instance)

/-!
Basic lemmas about the codec primitives.
-/

theorem toLE_length (w n : Nat) : (toLE w n).length = w := by
  induction w generalizing n with
  | zero => rfl
  | succ w ih => simp [toLE, ih]

theorem fromLE_toLE (w n : Nat) : fromLE (toLE w n) = n % 256 ^ w := by
  induction w generalizing n with
  | zero => simp [toLE, fromLE, Nat.mod_one]
  | succ w ih =>
    simp only [toLE, fromLE, ih]
    rw [pow_succ, mul_comm (256 ^ w) 256, Nat.mod_mul]

theorem varintDec_varintAux (fuel : Nat) : ∀ n, n ≤ fuel → ∀ r : List Nat,
    varintDec (varintAux fuel n ++ r) = some (n, r) := by
  induction fuel with
  | zero =>
    intro n hf r
    have hn : n = 0 := by omega
    subst hn
    simp [varintAux, varintDec]
  | succ fuel ih =>
    intro n hf r
    by_cases h : n < 128
    · simp [varintAux, h, varintDec]
    · rw [varintAux, if_neg h]
      simp only [List.cons_append, varintDec, List.append_eq]
      rw [if_neg (by omega)]
      rw [ih (n / 128) (by omega)]
      have hmd : n % 128 + 128 - 128 + 128 * (n / 128) = n := by omega
      dsimp only
      rw [hmd]

theorem varintDec_varint (n : Nat) (r : List Nat) :
    varintDec (varint n ++ r) = some (n, r) :=
  varintDec_varintAux n n le_rfl r

theorem decStr_encStr (s : String) (r : List Nat) :
    decStr (encStr s ++ r) = some (s, r) := by
  obtain ⟨data⟩ := s
  simp only [decStr, encStr, List.append_assoc, varintDec_varint]
  have hlen : (strBytes ⟨data⟩).length ≤ (strBytes ⟨data⟩ ++ r).length := by
    simp
  rw [if_pos hlen]
  have htake : (strBytes ⟨data⟩ ++ r).take (strBytes ⟨data⟩).length = strBytes ⟨data⟩ := by
    simp
  have hdrop : (strBytes ⟨data⟩ ++ r).drop (strBytes ⟨data⟩).length = r := by
    simp
  rw [htake, hdrop]
  simp only [strBytes, List.map_map]
  have hid : data.map (Char.ofNat ∘ Char.toNat) = data := by
    induction data with
    | nil => rfl
    | cons c cs ih => simp [Char.ofNat_toNat, ih]
  rw [hid]

theorem varintDec_varint_nil (n : Nat) : varintDec (varint n) = some (n, []) := by
  have h := varintDec_varint n []
  simpa using h

theorem decodeCmd_encodeCmd (c : KvsCommand) : decodeCmd (encodeCmd c) = some c := by
  obtain ⟨ts, seq, ck, ver, cmd⟩ := c
  match cmd with
  | none =>
    simp only [encodeCmd, decodeCmd, List.append_assoc, varintDec_varint]
  | some (.Set s) =>
    simp only [encodeCmd, decodeCmd, List.append_assoc, List.cons_append,
      varintDec_varint]
    simp only [decStr_encStr, varintDec_varint, varintDec_varint_nil]
  | some (.Remove r) =>
    simp only [encodeCmd, decodeCmd, List.append_assoc, List.cons_append,
      varintDec_varint]
    simp only [decStr_encStr, varintDec_varint, varintDec_varint_nil]

/-!
Claims about the error paths and the read path.
-/

theorem load_v2_stop (geneeration : Nat) (rem : List Nat) (pos : Nat)
    (index : Index) (uncompacted highest_sequence : Nat)
    (h : rem.length < 4) :
    load_v2 geneeration rem pos index uncompacted highest_sequence =
      .ok (index, uncompacted, highest_sequence) := by
  rw [load_v2, if_pos h]

theorem load_v2_step_set (geneeration : Nat) (rem : List Nat) (pos : Nat)
    (index : Index) (uncompacted highest_sequence : Nat)
    (cmd : KvsCommand) (st : KvsSet)
    (h4 : ¬ rem.length < 4)
    (hm : ¬ (rem.drop 4).length < fromLE (rem.take 4))
    (hdec : decodeCmd ((rem.drop 4).take (fromLE (rem.take 4))) = some cmd)
    (hv : cmd.verify_checksum = true)
    (hc : cmd.command = some (.Set st)) :
    load_v2 geneeration rem pos index uncompacted highest_sequence =
      load_v2 geneeration ((rem.drop 4).drop (fromLE (rem.take 4)))
        (pos + 4 + fromLE (rem.take 4))
        (idxInsert index st.key ⟨geneeration, pos, 4 + fromLE (rem.take 4)⟩).1
        (uncompacted +
          (idxInsert index st.key ⟨geneeration, pos, 4 + fromLE (rem.take 4)⟩).2.elim 0 (·.len))
        (max highest_sequence cmd.sequence_number) := by
  rw [load_v2, if_neg h4]
  dsimp only
  rw [if_neg hm, hdec]
  dsimp only
  rw [hv, hc]
  rfl

theorem load_v2_step_remove (geneeration : Nat) (rem : List Nat) (pos : Nat)
    (index : Index) (uncompacted highest_sequence : Nat)
    (cmd : KvsCommand) (r : KvsRemove)
    (h4 : ¬ rem.length < 4)
    (hm : ¬ (rem.drop 4).length < fromLE (rem.take 4))
    (hdec : decodeCmd ((rem.drop 4).take (fromLE (rem.take 4))) = some cmd)
    (hv : cmd.verify_checksum = true)
    (hc : cmd.command = some (.Remove r)) :
    load_v2 geneeration rem pos index uncompacted highest_sequence =
      load_v2 geneeration ((rem.drop 4).drop (fromLE (rem.take 4)))
        (pos + 4 + fromLE (rem.take 4))
        (idxRemove index r.key).1
        (uncompacted + (idxRemove index r.key).2.elim 0 (·.len) +
          (4 + fromLE (rem.take 4)))
        (max highest_sequence cmd.sequence_number) := by
  rw [load_v2, if_neg h4]
  dsimp only
  rw [if_neg hm, hdec]
  dsimp only
  rw [hv, hc]
  rfl

theorem frameAt_eq_some {l : List Nat} {p : Nat} {b : List Nat}
    (h : frameAt l p = some b) :
    p + 4 ≤ l.length ∧ p + 4 + fromLE (byteSlice l p 4) ≤ l.length ∧
      byteSlice l (p + 4) (fromLE (byteSlice l p 4)) = b := by
  unfold frameAt at h
  split_ifs at h with hc
  exact ⟨hc.1, hc.2, by injection h⟩

theorem getOp_state (s : KvState) (key : String) :
    ∃ f, (getOp s key).2 = { s with readerPos := f } := by
  unfold getOp
  dsimp only
  repeat' split
  all_goals exact ⟨_, rfl⟩

/-- C5: `remove(K)` of a key absent from the index fails with `KeyNotFound`
before any byte is written: the returned state is the input state, so every
log file, the index, the stale-byte counter and the sequence counter are
untouched. -/
theorem remove_absent_unchanged (s : KvState) (key : String) (ts : Nat)
    (h : idxLookup s.index key = none) :
    removeOp s key ts = (s, some KvsError.KeyNotFound) := by
  unfold removeOp
  rw [h]

/-- Witness for `remove_absent_unchanged` at the empty store. -/
theorem remove_absent_unchanged_witness :
    idxLookup emptyStore.index "absent" = none ∧
      removeOp emptyStore "absent" 0 = (emptyStore, some KvsError.KeyNotFound) :=
  ⟨rfl, remove_absent_unchanged emptyStore "absent" 0 rfl⟩

/-- C6 (code evaluated at the failing input): the sled adapter's `remove`
discards the old value sled returns and yields `Ok(())` for an absent key,
never `KeyNotFound`, contrary to the engine contract. -/
theorem sled_remove_absent_returns_ok :
    (sledRemove sledEmpty "absent").1 = .ok () ∧
      ∀ e : KvsError, (sledRemove sledEmpty "absent").1 ≠ .error e := by
  refine ⟨rfl, fun e h => ?_⟩
  exact Except.noConfusion h

/-- C3 (code evaluated at the failing input): after `set("a","b")` (an
18-byte frame) and `remove("a")` (a 14-byte frame), the live `uncompacted`
counter holds only the superseded Set's 18 bytes, while replaying the very
log file the two operations produced counts 32 = 18 + 14 stale bytes, the
Remove record included. -/
theorem remove_uncompacted_counts_only_set :
    (setOp emptyStore "a" "b" 0).2 = none ∧
    (removeOp (setOp emptyStore "a" "b" 0).1 "a" 0).2 = none ∧
    4 + (encodeCmd (KvsCommand.set "a" "b" 1 0)).length = 18 ∧
    4 + (encodeCmd (KvsCommand.remove "a" 2 0)).length = 14 ∧
    (removeOp (setOp emptyStore "a" "b" 0).1 "a" 0).1.uncompacted = 18 ∧
    load_v2 1 (fileOf (removeOp (setOp emptyStore "a" "b" 0).1 "a" 0).1.files 1) 0 [] 0 0
      = .ok ([], 32, 2) := by
  refine ⟨by decide, by decide, by decide, by decide, by decide, ?_⟩
  have hfile : fileOf (removeOp (setOp emptyStore "a" "b" 0).1 "a" 0).1.files 1 =
      [14, 0, 0, 0, 0, 1, 182, 253, 132, 44, 1, 1, 1, 97, 1, 98, 0, 0,
       10, 0, 0, 0, 0, 2, 241, 131, 43, 1, 2, 1, 97, 0] := by decide
  rw [hfile]
  rw [load_v2_step_set 1 _ 0 [] 0 0 (KvsCommand.set "a" "b" 1 0) ⟨"a", "b", 0, 0⟩
    (by decide) (by decide) (by decide) (by decide) (by decide)]
  rw [load_v2_step_remove 1 _ _ _ _ _ (KvsCommand.remove "a" 2 0) ⟨"a", 0⟩
    (by decide) (by decide) (by decide) (by decide) (by decide)]
  rw [load_v2_stop _ _ _ _ _ _ (by decide)]
  decide

/-- C4 (code evaluated at the failing input): a log file consisting of a
single byte — a truncated length prefix, so not a sequence of complete
records — replays without error as if it were empty: the partial prefix is
silently dropped. -/
theorem load_v2_silent_partial_prefix :
    load_v2 1 [7] 0 [] 0 0 = .ok ([], 0, 0) ∧ ([7] : List Nat) ≠ [] :=
  ⟨load_v2_stop 1 [7] 0 [] 0 0 (by decide), by decide⟩

/-- C7 counterexample: a record that decodes successfully with an empty
tagged union makes `get` return `CorruptedData`, not `UnexpectedCommandType`
as claimed — checksum verification rejects an absent command first. -/
theorem get_empty_union_counterexample :
    decodeCmd emptyCmdBytes = some ⟨0, 1, 0, 1, none⟩ ∧
    (getOp emptyCmdStore "k").1 = .error .CorruptedData ∧
      (getOp emptyCmdStore "k").1 ≠ .error .UnexpectedCommandType := by
  decide

/-- C7 amended: when the index entry points at a complete frame whose record
decodes with an empty tagged union, `get` returns `CorruptedData`, because
`verify_checksum` is false for a record without a command and the checksum
test precedes the command match. -/
theorem get_empty_union_returns_corrupted (s : KvState) (key : String)
    (cp : CommandPos) (b : List Nat) (c : KvsCommand)
    (hlk : idxLookup s.index key = some cp)
    (hfr : frameAt (fileOf s.files cp.geneeration) cp.pos = some b)
    (hdec : decodeCmd b = some c)
    (hnone : c.command = none) :
    (getOp s key).1 = .error .CorruptedData := by
  obtain ⟨h1, h2, h3⟩ := frameAt_eq_some hfr
  unfold getOp
  rw [hlk]
  dsimp only
  rw [if_neg (by omega), if_neg (by omega), h3, hdec]
  have hv : c.verify_checksum = false := by
    unfold KvsCommand.verify_checksum
    rw [hnone]
  simp [hv]

/-- Witness for `get_empty_union_returns_corrupted` at a concrete store. -/
theorem get_empty_union_returns_corrupted_witness :
    (getOp emptyCmdStore "k").1 = .error .CorruptedData :=
  get_empty_union_returns_corrupted emptyCmdStore "k"
    ⟨1, 0, 4 + emptyCmdBytes.length⟩ emptyCmdBytes ⟨0, 1, 0, 1, none⟩
    (by decide) (by decide) (by decide) rfl

/-- C10: `get` leaves every engine state component except the per-generation
reader cursors unchanged — the log files, the index, the stale-byte counter,
the sequence counter, the current generation and the safe point all survive,
whatever the outcome of the lookup. -/
theorem get_touches_only_reader_cursors (s : KvState) (key : String) :
    (getOp s key).2.files = s.files ∧
    (getOp s key).2.index = s.index ∧
    (getOp s key).2.uncompacted = s.uncompacted ∧
    (getOp s key).2.current_sequence = s.current_sequence ∧
    (getOp s key).2.current_generation = s.current_generation ∧
    (getOp s key).2.safe_point = s.safe_point := by
  obtain ⟨f, hf⟩ := getOp_state s key
  rw [hf]
  exact ⟨rfl, rfl, rfl, rfl, rfl, rfl⟩

/-!
Frame and slice stability under append.
-/

theorem byteSlice_length {l : List Nat} {p n : Nat} (h : p + n ≤ l.length) :
    (byteSlice l p n).length = n := by
  unfold byteSlice
  rw [List.length_take, List.length_drop]
  omega

theorem byteSlice_append {l e : List Nat} {p n : Nat} (h : p + n ≤ l.length) :
    byteSlice (l ++ e) p n = byteSlice l p n := by
  unfold byteSlice
  rw [List.drop_append_of_le_length (by omega)]
  rw [List.take_append_of_le_length (by rw [List.length_drop]; omega)]

theorem frameAt_append {l e : List Nat} {p : Nat} {b : List Nat}
    (h : frameAt l p = some b) : frameAt (l ++ e) p = some b := by
  obtain ⟨h1, h2, h3⟩ := frameAt_eq_some h
  unfold frameAt
  rw [byteSlice_append (by omega)]
  rw [if_pos ⟨by simp only [List.length_append]; omega,
    by simp only [List.length_append]; omega⟩]
  rw [byteSlice_append (by omega), h3]

theorem byteSlice_start (l e : List Nat) (n : Nat) (h : n ≤ e.length) :
    byteSlice (l ++ e) l.length n = e.take n := by
  unfold byteSlice
  rw [List.drop_append_of_le_length le_rfl]
  simp

theorem byteSlice_split {l : List Nat} {p n m : Nat} :
    byteSlice l p (n + m) = byteSlice l p n ++ byteSlice l (p + n) m := by
  unfold byteSlice
  rw [List.take_add]
  congr 1
  rw [List.drop_drop]
  try congr 1
  try omega

theorem frameAt_last (l b : List Nat) (hb : b.length < 4294967296) :
    frameAt (l ++ (toLE 4 b.length ++ b)) l.length = some b := by
  have hpre : byteSlice (l ++ (toLE 4 b.length ++ b)) l.length 4 = toLE 4 b.length := by
    rw [byteSlice_start _ _ 4 (by simp [toLE_length])]
    rw [List.take_append_of_le_length (by simp [toLE_length])]
    simp [toLE_length]
  have hval : fromLE (toLE 4 b.length) = b.length := by
    rw [fromLE_toLE]
    exact Nat.mod_eq_of_lt (by norm_num; exact hb)
  unfold frameAt
  rw [hpre, hval]
  rw [if_pos ⟨by simp only [List.length_append, toLE_length]; omega,
    by simp only [List.length_append, toLE_length]; omega⟩]
  have : l.length + 4 = (l ++ toLE 4 b.length).length := by simp [toLE_length]
  rw [show l ++ (toLE 4 b.length ++ b) = (l ++ toLE 4 b.length) ++ b by simp, this]
  rw [byteSlice_start _ _ _ le_rfl]
  simp

/-!
Association list lemmas for the index and the generation file set.
-/

theorem idxLookup_mem {ix : Index} {k : String} {cp : CommandPos}
    (h : idxLookup ix k = some cp) : (k, cp) ∈ ix := by
  induction ix with
  | nil => simp [idxLookup] at h
  | cons p rest ih =>
    obtain ⟨k0, cp0⟩ := p
    unfold idxLookup at h
    by_cases hk : k0 = k
    · rw [if_pos hk] at h
      subst hk
      injection h with h
      subst h
      exact List.mem_cons_self _ _
    · rw [if_neg hk] at h
      exact List.mem_cons_of_mem _ (ih h)

theorem idxLookup_eq_of_mem_nodup {ix : Index} {k : String} {cp : CommandPos}
    (hn : (ix.map Prod.fst).Nodup) (h : (k, cp) ∈ ix) :
    idxLookup ix k = some cp := by
  induction ix with
  | nil => simp at h
  | cons p rest ih =>
    obtain ⟨k0, cp0⟩ := p
    simp only [List.map_cons, List.nodup_cons] at hn
    rcases List.mem_cons.mp h with heq | hmem
    · injection heq with h1 h2
      subst h1
      subst h2
      simp [idxLookup]
    · unfold idxLookup
      have hk : k0 ≠ k := by
        intro he
        subst he
        exact hn.1 (List.mem_map.mpr ⟨(k0, cp), hmem, rfl⟩)
      rw [if_neg hk]
      exact ih hn.2 hmem

theorem idxLookup_isSome {ix : Index} {k : String} :
    (idxLookup ix k).isSome = true ↔ k ∈ ix.map Prod.fst := by
  induction ix with
  | nil => simp [idxLookup]
  | cons p rest ih =>
    obtain ⟨k0, cp0⟩ := p
    unfold idxLookup
    by_cases hk : k0 = k
    · subst hk
      simp
    · rw [if_neg hk]
      simp only [List.map_cons, List.mem_cons]
      rw [ih]
      constructor
      · exact fun h => Or.inr h
      · rintro (h | h)
        · exact absurd h.symm hk
        · exact h

theorem idxInsert_snd (ix : Index) (k : String) (cp : CommandPos) :
    (idxInsert ix k cp).2 = idxLookup ix k := by
  induction ix with
  | nil => rfl
  | cons p rest ih =>
    obtain ⟨k0, cp0⟩ := p
    unfold idxInsert idxLookup
    by_cases hk : k0 = k
    · rw [if_pos hk, if_pos hk]
    · rw [if_neg hk, if_neg hk]
      exact ih

theorem idxLookup_insert (ix : Index) (k : String) (cp : CommandPos) (q : String) :
    idxLookup (idxInsert ix k cp).1 q = if k = q then some cp else idxLookup ix q := by
  induction ix with
  | nil => by_cases hq : k = q <;> simp [idxInsert, idxLookup, hq]
  | cons p rest ih =>
    obtain ⟨k0, cp0⟩ := p
    by_cases hk : k0 = k
    · subst hk
      by_cases hq : k0 = q <;> simp [idxInsert, idxLookup, hq]
    · by_cases hq : k0 = q
      · subst hq
        have hne : ¬ k = k0 := fun he => hk he.symm
        simp [idxInsert, idxLookup, hk, hne]
      · simp [idxInsert, idxLookup, hk, hq, ih]

theorem idxInsert_keys (ix : Index) (k : String) (cp : CommandPos) :
    ((idxInsert ix k cp).1.map Prod.fst) =
      if k ∈ ix.map Prod.fst then ix.map Prod.fst else ix.map Prod.fst ++ [k] := by
  induction ix with
  | nil => simp [idxInsert]
  | cons p rest ih =>
    obtain ⟨k0, cp0⟩ := p
    unfold idxInsert
    by_cases hk : k0 = k
    · subst hk
      simp
    · rw [if_neg hk]
      simp only [List.map_cons, List.mem_cons]
      rw [ih]
      by_cases hm : k ∈ rest.map Prod.fst
      · rw [if_pos hm, if_pos (Or.inr hm)]
      · rw [if_neg hm, if_neg (by rintro (h | h); exact hk h.symm; exact hm h)]
        simp

theorem idxInsert_mem {ix : Index} {k : String} {cp : CommandPos} {q : String × CommandPos}
    (h : q ∈ (idxInsert ix k cp).1) : q = (k, cp) ∨ q ∈ ix := by
  induction ix with
  | nil =>
    simp [idxInsert] at h
    exact Or.inl h
  | cons p rest ih =>
    obtain ⟨k0, cp0⟩ := p
    unfold idxInsert at h
    by_cases hk : k0 = k
    · rw [if_pos hk] at h
      rcases List.mem_cons.mp h with h | h
      · exact Or.inl h
      · exact Or.inr (List.mem_cons_of_mem _ h)
    · rw [if_neg hk] at h
      rcases List.mem_cons.mp h with h | h
      · exact Or.inr (h ▸ List.mem_cons_self _ _)
      · rcases ih h with h | h
        · exact Or.inl h
        · exact Or.inr (List.mem_cons_of_mem _ h)

theorem idxRemove_snd (ix : Index) (k : String) :
    (idxRemove ix k).2 = idxLookup ix k := by
  induction ix with
  | nil => rfl
  | cons p rest ih =>
    obtain ⟨k0, cp0⟩ := p
    unfold idxRemove idxLookup
    by_cases hk : k0 = k
    · rw [if_pos hk, if_pos hk]
    · rw [if_neg hk, if_neg hk]
      exact ih

theorem idxRemove_mem {ix : Index} {k : String} {q : String × CommandPos}
    (h : q ∈ (idxRemove ix k).1) : q ∈ ix := by
  induction ix with
  | nil => simp [idxRemove] at h
  | cons p rest ih =>
    obtain ⟨k0, cp0⟩ := p
    unfold idxRemove at h
    by_cases hk : k0 = k
    · rw [if_pos hk] at h
      exact List.mem_cons_of_mem _ h
    · rw [if_neg hk] at h
      rcases List.mem_cons.mp h with h | h
      · exact h ▸ List.mem_cons_self _ _
      · exact List.mem_cons_of_mem _ (ih h)

theorem idxRemove_keys_sublist (ix : Index) (k : String) :
    ((idxRemove ix k).1.map Prod.fst).Sublist (ix.map Prod.fst) := by
  induction ix with
  | nil => simp [idxRemove]
  | cons p rest ih =>
    obtain ⟨k0, cp0⟩ := p
    unfold idxRemove
    by_cases hk : k0 = k
    · rw [if_pos hk]
      simp only [List.map_cons]
      exact List.sublist_cons_of_sublist _ (List.Sublist.refl _)
    · rw [if_neg hk]
      simp only [List.map_cons]
      exact List.Sublist.cons₂ _ ih

theorem idxLookup_remove {ix : Index} (hn : (ix.map Prod.fst).Nodup)
    (k q : String) :
    idxLookup (idxRemove ix k).1 q = if k = q then none else idxLookup ix q := by
  induction ix with
  | nil => by_cases hq : k = q <;> simp [idxRemove, idxLookup, hq]
  | cons p rest ih =>
    obtain ⟨k0, cp0⟩ := p
    simp only [List.map_cons, List.nodup_cons] at hn
    by_cases hk : k0 = k
    · subst hk
      by_cases hq : k0 = q
      · subst hq
        cases hl : idxLookup rest k0 with
        | none => simp [idxRemove, hl]
        | some cp =>
          exact absurd (List.mem_map.mpr ⟨(k0, cp), idxLookup_mem hl, rfl⟩) hn.1
      · simp [idxRemove, idxLookup, hq]
    · by_cases hq : k0 = q
      · subst hq
        have hne : ¬ k = k0 := fun he => hk he.symm
        simp [idxRemove, idxLookup, hk, hne]
      · simp [idxRemove, idxLookup, hk, hq, ih hn.2]

/-!
Characterization of the compaction copy loop.
-/

theorem frameAt_snoc (l pre msg : List Nat) (hp : pre.length = 4)
    (hv : fromLE pre = msg.length) :
    frameAt (l ++ (pre ++ msg)) l.length = some msg := by
  have hpre : byteSlice (l ++ (pre ++ msg)) l.length 4 = pre := by
    rw [byteSlice_start _ _ 4 (by simp; omega)]
    rw [List.take_append_of_le_length (by omega)]
    rw [← hp, List.take_length]
  unfold frameAt
  rw [hpre, hv]
  rw [if_pos ⟨by simp; omega, by simp; omega⟩]
  have hassoc : l ++ (pre ++ msg) = (l ++ pre) ++ msg := by simp
  have hlen : l.length + 4 = (l ++ pre).length := by simp [hp]
  rw [hassoc, hlen, byteSlice_start _ _ _ le_rfl]
  simp

theorem compactLoop_ok_spec (compGen : Nat) (files : GenFiles) :
    ∀ (entries : Index) (acc : List Nat) (upd : Index) (out : List Nat × Index),
    compactLoop compGen files entries acc.length acc upd = .ok out →
    (∃ ext, out.1 = acc ++ ext) ∧
    out.2.map Prod.fst = upd.map Prod.fst ++ entries.map Prod.fst ∧
    (∀ q ∈ upd, q ∈ out.2) ∧
    (∀ p ∈ entries, ∃ cp' b,
      (p.1, cp') ∈ out.2 ∧
      cp'.geneeration = compGen ∧
      frameAt (fileOf files p.2.geneeration) p.2.pos = some b ∧
      cp'.len = 4 + b.length ∧
      frameAt out.1 cp'.pos = some b ∧
      byteSlice out.1 cp'.pos cp'.len =
        byteSlice (fileOf files p.2.geneeration) p.2.pos cp'.len) ∧
    (∀ q ∈ out.2, q ∈ upd ∨ ∃ p ∈ entries, ∃ b,
      q.1 = p.1 ∧ q.2.geneeration = compGen ∧
      frameAt (fileOf files p.2.geneeration) p.2.pos = some b ∧
      q.2.len = 4 + b.length ∧ frameAt out.1 q.2.pos = some b) := by
  intro entries
  induction entries with
  | nil =>
    intro acc upd out h
    unfold compactLoop at h
    injection h with h
    subst h
    refine ⟨⟨[], by simp⟩, by simp, fun q hq => hq, by simp, fun q hq => Or.inl hq⟩
  | cons p rest ih =>
    obtain ⟨key, cp⟩ := p
    intro acc upd out h
    unfold compactLoop at h
    dsimp only at h
    by_cases hc1 : cp.pos + 4 ≤ (fileOf files cp.geneeration).length
    · rw [if_pos hc1] at h
      by_cases hc2 : cp.pos + 4 + fromLE (byteSlice (fileOf files cp.geneeration) cp.pos 4) ≤
          (fileOf files cp.geneeration).length
      · rw [if_pos hc2] at h
        set file := fileOf files cp.geneeration with hfile
        set lenB := byteSlice file cp.pos 4 with hlenB
        set msgLen := fromLE lenB with hmsgLen
        set msgB := byteSlice file (cp.pos + 4) msgLen with hmsgB
        have hlenB4 : lenB.length = 4 := byteSlice_length (by omega)
        have hmsgBlen : msgB.length = msgLen := byteSlice_length (by omega)
        have hacc : acc.length + 4 + msgLen = (acc ++ lenB ++ msgB).length := by
          simp only [List.length_append, hlenB4, hmsgBlen]
        rw [hacc] at h
        obtain ⟨⟨ext, hext⟩, hkeys, hupd, hents, hout⟩ := ih _ _ _ h
        have hframe_src : frameAt file cp.pos = some msgB := by
          unfold frameAt
          rw [← hlenB, ← hmsgLen, if_pos ⟨hc1, hc2⟩, ← hmsgB]
        have hout1 : out.1 = acc ++ ((lenB ++ msgB) ++ ext) := by
          rw [hext]; simp
        have hframe_new : frameAt out.1 acc.length = some msgB := by
          rw [hout1, show acc ++ ((lenB ++ msgB) ++ ext) = (acc ++ (lenB ++ msgB)) ++ ext by simp]
          exact frameAt_append (frameAt_snoc acc lenB msgB hlenB4 (by rw [← hmsgLen, hmsgBlen]))
        have hslice_new : byteSlice out.1 acc.length (4 + msgLen) = lenB ++ msgB := by
          rw [hout1, byteSlice_start _ _ _ (by simp [hlenB4, hmsgBlen])]
          rw [List.take_append_of_le_length (by simp [hlenB4, hmsgBlen])]
          rw [show (4 + msgLen) = (lenB ++ msgB).length by simp [hlenB4, hmsgBlen], List.take_length]
        have hslice_src : byteSlice file cp.pos (4 + msgLen) = lenB ++ msgB := by
          rw [byteSlice_split, ← hlenB, ← hmsgB]
        refine ⟨⟨(lenB ++ msgB) ++ ext, hout1⟩, ?_, ?_, ?_, ?_⟩
        · rw [hkeys]; simp
        · intro q hq
          exact hupd q (List.mem_append_left _ hq)
        · intro q hq
          rcases List.mem_cons.mp hq with heq | hmem
          · subst heq
            refine ⟨⟨compGen, acc.length, 4 + msgLen⟩, msgB, ?_, rfl, hframe_src, ?_, ?_, ?_⟩
            · exact hupd _ (List.mem_append_right _ (List.mem_singleton.mpr rfl))
            · simp [hmsgBlen]
            · exact hframe_new
            · dsimp only
              rw [hslice_new, hslice_src]
          · exact hents q hmem
        · intro q hq
          rcases hout q hq with hql | ⟨p, hp, b, hb⟩
          · rcases List.mem_append.mp hql with hql | hql
            · exact Or.inl hql
            · rcases List.mem_singleton.mp hql with rfl
              refine Or.inr ⟨(key, cp), List.mem_cons_self _ _, msgB,
                rfl, rfl, hframe_src, by simp [hmsgBlen], hframe_new⟩
          · exact Or.inr ⟨p, List.mem_cons_of_mem _ hp, b, hb⟩
      · rw [if_neg hc2] at h
        exact absurd h (by simp)
    · rw [if_neg hc1] at h
      exact absurd h (by simp)

theorem compactLoop_total (compGen : Nat) (files : GenFiles) :
    ∀ (entries : Index) (np : Nat) (acc : List Nat) (upd : Index),
    (∀ p ∈ entries, ∃ b, frameAt (fileOf files p.2.geneeration) p.2.pos = some b) →
    ∃ out, compactLoop compGen files entries np acc upd = .ok out := by
  intro entries
  induction entries with
  | nil =>
    intro np acc upd _
    exact ⟨(acc, upd), rfl⟩
  | cons p rest ih =>
    obtain ⟨key, cp⟩ := p
    intro np acc upd hg
    obtain ⟨b, hb⟩ := hg (key, cp) (List.mem_cons_self _ _)
    obtain ⟨h1, h2, h3⟩ := frameAt_eq_some hb
    unfold compactLoop
    dsimp only
    rw [if_pos h1, if_pos h2]
    exact ih _ _ _ (fun q hq => hg q (List.mem_cons_of_mem _ hq))

theorem genLookup_genSet (fs : GenFiles) (g : Nat) (v : List Nat) (q : Nat) :
    genLookup (genSet fs g v) q = if g = q then some v else genLookup fs q := by
  induction fs with
  | nil =>
    by_cases h : g = q <;> simp [genSet, genLookup, h]
  | cons p rest ih =>
    obtain ⟨g0, f0⟩ := p
    by_cases hg : g0 = g
    · subst hg
      by_cases hq : g0 = q <;> simp [genSet, genLookup, hq]
    · by_cases hq : g0 = q
      · subst hq
        have hne : ¬ g = g0 := fun he => hg he.symm
        simp [genSet, genLookup, hg, hne]
      · simp [genSet, genLookup, hg, hq, ih]

theorem fileOf_genSet (fs : GenFiles) (g : Nat) (v : List Nat) (q : Nat) :
    fileOf (genSet fs g v) q = if g = q then v else fileOf fs q := by
  unfold fileOf
  rw [genLookup_genSet]
  by_cases h : g = q <;> simp [h]

theorem genSet_mem {fs : GenFiles} {g : Nat} {v : List Nat} {p : Nat × List Nat}
    (h : p ∈ genSet fs g v) : p.1 = g ∨ p ∈ fs := by
  induction fs with
  | nil =>
    simp [genSet] at h
    subst h
    exact Or.inl rfl
  | cons q rest ih =>
    obtain ⟨g0, f0⟩ := q
    unfold genSet at h
    by_cases hg : g0 = g
    · rw [if_pos hg] at h
      rcases List.mem_cons.mp h with h | h
      · subst h
        exact Or.inl rfl
      · exact Or.inr (List.mem_cons_of_mem _ h)
    · rw [if_neg hg] at h
      rcases List.mem_cons.mp h with h | h
      · exact Or.inr (h ▸ List.mem_cons_self _ _)
      · rcases ih h with h | h
        · exact Or.inl h
        · exact Or.inr (List.mem_cons_of_mem _ h)

theorem genLookup_filter_ge (fs : GenFiles) (n : Nat) (g : Nat) :
    genLookup (fs.filter (fun p => ¬ p.1 < n)) g =
      if g < n then none else genLookup fs g := by
  induction fs with
  | nil => by_cases h : g < n <;> simp [genLookup, h]
  | cons p rest ih =>
    obtain ⟨g0, f0⟩ := p
    by_cases h0 : g0 < n
    · rw [List.filter_cons_of_neg (by simpa using h0), ih]
      by_cases hg : g < n
      · rw [if_pos hg, if_pos hg]
      · rw [if_neg hg, if_neg hg]
        have hne : ¬ g0 = g := by omega
        simp [genLookup, hne]
    · rw [List.filter_cons_of_pos (by simpa using h0)]
      by_cases hg : g0 = g
      · subst hg
        simp [genLookup, h0]
      · simp only [genLookup, if_neg hg]
        exact ih

theorem idxLookup_foldl_insert_of_none :
    ∀ (upds base : Index) (k : String),
    idxLookup upds k = none →
    idxLookup (upds.foldl (fun ix p => (idxInsert ix p.1 p.2).1) base) k =
      idxLookup base k := by
  intro upds
  induction upds with
  | nil =>
    intro base k _
    rfl
  | cons u us ih =>
    obtain ⟨k0, cp0⟩ := u
    intro base k hl
    unfold idxLookup at hl
    by_cases hk : k0 = k
    · rw [if_pos hk] at hl
      exact absurd hl (by simp)
    · rw [if_neg hk] at hl
      rw [List.foldl_cons, ih _ k hl]
      dsimp only
      rw [idxLookup_insert, if_neg hk]

theorem idxLookup_foldl_insert_of_some :
    ∀ (upds base : Index) (k : String) (v : CommandPos),
    (upds.map Prod.fst).Nodup →
    idxLookup upds k = some v →
    idxLookup (upds.foldl (fun ix p => (idxInsert ix p.1 p.2).1) base) k = some v := by
  intro upds
  induction upds with
  | nil =>
    intro base k v _ hl
    exact absurd hl (by simp [idxLookup])
  | cons u us ih =>
    obtain ⟨k0, cp0⟩ := u
    intro base k v hn hl
    simp only [List.map_cons, List.nodup_cons] at hn
    unfold idxLookup at hl
    by_cases hk : k0 = k
    · rw [if_pos hk] at hl
      injection hl with hl
      subst hl
      subst hk
      have hus : idxLookup us k0 = none := by
        cases hu : idxLookup us k0 with
        | none => rfl
        | some w =>
          exact absurd (List.mem_map.mpr ⟨(k0, w), idxLookup_mem hu, rfl⟩) hn.1
      rw [List.foldl_cons, idxLookup_foldl_insert_of_none _ _ _ hus]
      dsimp only
      rw [idxLookup_insert, if_pos rfl]
    · rw [if_neg hk] at hl
      rw [List.foldl_cons]
      exact ih _ k v hn.2 hl

theorem keys_foldl_insert :
    ∀ (upds base : Index),
    (∀ k ∈ upds.map Prod.fst, k ∈ base.map Prod.fst) →
    (upds.foldl (fun ix p => (idxInsert ix p.1 p.2).1) base).map Prod.fst =
      base.map Prod.fst := by
  intro upds
  induction upds with
  | nil =>
    intro base _
    rfl
  | cons u us ih =>
    obtain ⟨k0, cp0⟩ := u
    intro base hsub
    rw [List.foldl_cons]
    have hkeys0 : ((idxInsert base k0 cp0).1.map Prod.fst) = base.map Prod.fst := by
      rw [idxInsert_keys, if_pos (hsub k0 (by simp))]
    rw [ih _ (fun k hk => by rw [hkeys0]; exact hsub k (by simp [hk]))]
    exact hkeys0

theorem mem_foldl_insert :
    ∀ (upds base : Index) (q : String × CommandPos),
    q ∈ upds.foldl (fun ix p => (idxInsert ix p.1 p.2).1) base →
    q ∈ upds ∨ q ∈ base := by
  intro upds
  induction upds with
  | nil =>
    intro base q h
    exact Or.inr h
  | cons u us ih =>
    intro base q h
    rw [List.foldl_cons] at h
    rcases ih _ q h with h | h
    · exact Or.inl (List.mem_cons_of_mem _ h)
    · rcases idxInsert_mem h with h | h
      · exact Or.inl (h ▸ List.mem_cons_self _ _)
      · exact Or.inr h

theorem fileOf_filter_ge (fs : GenFiles) (n g : Nat) :
    fileOf (fs.filter (fun p => ¬ p.1 < n)) g = if g < n then [] else fileOf fs g := by
  unfold fileOf
  rw [genLookup_filter_ge]
  by_cases h : g < n <;> simp [h]

/-- C2: for a store whose index keys are distinct and whose compaction
generation file does not yet exist (both guaranteed by the generation
discipline), a compaction that returns Ok leaves the uncompacted counter at
0 and maps every key live at its start into the compaction generation
`current_generation + 1`, with the frame bytes at the new location
byte-for-byte identical to the bytes previously stored for that key — so
checksums and sequence numbers are preserved and nothing is re-encoded. -/
theorem compact_ok_spec (s s' : KvState)
    (hn : (s.index.map Prod.fst).Nodup)
    (hfresh : fileOf s.files (s.current_generation + 1) = [])
    (hc : compactOp s = (s', none)) :
    s'.uncompacted = 0 ∧
    ∀ k cp, idxLookup s.index k = some cp →
      ∃ cp' b, idxLookup s'.index k = some cp' ∧
        cp'.geneeration = s.current_generation + 1 ∧
        frameAt (fileOf s.files cp.geneeration) cp.pos = some b ∧
        frameAt (fileOf s'.files cp'.geneeration) cp'.pos = some b ∧
        cp'.len = 4 + b.length ∧
        byteSlice (fileOf s'.files cp'.geneeration) cp'.pos cp'.len =
          byteSlice (fileOf s.files cp.geneeration) cp.pos cp'.len := by
  unfold compactOp at hc
  dsimp only at hc
  cases hloop : compactLoop (s.current_generation + 1)
      (genSet (genSet s.files (s.current_generation + 2)
        (fileOf s.files (s.current_generation + 2)))
        (s.current_generation + 1) (fileOf s.files (s.current_generation + 1)))
      s.index 0 [] [] with
  | error e =>
    rw [hloop] at hc
    exact absurd (congrArg Prod.snd hc) (by simp)
  | ok out =>
    obtain ⟨bytes, upd⟩ := out
    rw [hloop] at hc
    dsimp only at hc
    have hs' := congrArg Prod.fst hc
    dsimp only at hs'
    have hf0 : ∀ q, fileOf (genSet (genSet s.files (s.current_generation + 2)
        (fileOf s.files (s.current_generation + 2)))
        (s.current_generation + 1) (fileOf s.files (s.current_generation + 1))) q
        = fileOf s.files q := by
      intro q
      rw [fileOf_genSet, fileOf_genSet]
      split_ifs with h1 h2
      · rw [h1]
      · rw [h2]
      · rfl
    obtain ⟨hext, hkeys, hupd, hents, hout⟩ :=
      compactLoop_ok_spec (s.current_generation + 1) _ s.index [] [] (bytes, upd) hloop
    have hkeys2 : upd.map Prod.fst = s.index.map Prod.fst := by
      rw [show upd.map Prod.fst = (bytes, upd).2.map Prod.fst from rfl, hkeys]
      exact List.nil_append _
    have hn2 : (upd.map Prod.fst).Nodup := by
      rw [hkeys2]
      exact hn
    constructor
    · rw [← hs']
    · intro k cp hl
      obtain ⟨cp', b, hmem', hgen', hfr_src0, hlen', hfr_new, hslice⟩ :=
        hents (k, cp) (idxLookup_mem hl)
      have hlk' : idxLookup upd k = some cp' := idxLookup_eq_of_mem_nodup hn2 hmem'
      have hidx : s'.index = upd.foldl (fun ix p => (idxInsert ix p.1 p.2).1) s.index := by
        rw [← hs']
      have hfile' : fileOf s'.files (s.current_generation + 1) = bytes := by
        rw [← hs']
        show fileOf (List.filter _ _) _ = bytes
        rw [fileOf_filter_ge, if_neg (lt_irrefl _), fileOf_genSet, if_pos rfl, hf0, hfresh]
        rfl
      refine ⟨cp', b, ?_, hgen', ?_, ?_, hlen', ?_⟩
      · rw [hidx]
        exact idxLookup_foldl_insert_of_some _ _ _ _ hn2 hlk'
      · rw [← hf0 cp.geneeration]
        exact hfr_src0
      · rw [hgen', hfile']
        exact hfr_new
      · rw [hgen', hfile', hslice, hf0]

/-- Witness for `compact_ok_spec` at a concrete one-key store. -/
theorem compact_ok_spec_witness :
    (compactOp store1).1.uncompacted = 0 ∧
    ∀ k cp, idxLookup store1.index k = some cp →
      ∃ cp' b, idxLookup (compactOp store1).1.index k = some cp' ∧
        cp'.geneeration = store1.current_generation + 1 ∧
        frameAt (fileOf store1.files cp.geneeration) cp.pos = some b ∧
        frameAt (fileOf (compactOp store1).1.files cp'.geneeration) cp'.pos = some b ∧
        cp'.len = 4 + b.length ∧
        byteSlice (fileOf (compactOp store1).1.files cp'.geneeration) cp'.pos cp'.len =
          byteSlice (fileOf store1.files cp.geneeration) cp.pos cp'.len :=
  compact_ok_spec store1 (compactOp store1).1 (by decide) (by decide)
    (Prod.ext rfl (by decide))

/-!
Well-formed index entries and their stability.
-/

theorem goodEntry_elim {files : GenFiles} {k : String} {cp : CommandPos}
    (h : goodEntry files k cp = true) :
    ∃ b c st, frameAt (fileOf files cp.geneeration) cp.pos = some b ∧
      decodeCmd b = some c ∧ c.command = some (Command.Set st) ∧ st.key = k ∧
      c.verify_checksum = true ∧ cp.len = 4 + b.length := by
  unfold goodEntry at h
  cases hf : frameAt (fileOf files cp.geneeration) cp.pos with
  | none =>
    rw [hf] at h
    exact absurd h (by simp)
  | some b =>
    rw [hf] at h
    dsimp only at h
    cases hd : decodeCmd b with
    | none =>
      rw [hd] at h
      exact absurd h (by simp)
    | some c =>
      rw [hd] at h
      dsimp only at h
      cases hc : c.command with
      | none =>
        rw [hc] at h
        exact absurd h (by simp)
      | some cmd =>
        cases cmd with
        | Set st =>
          rw [hc] at h
          simp only [Bool.and_eq_true, beq_iff_eq] at h
          exact ⟨b, c, st, rfl, hd, hc, h.1.1, h.1.2, h.2⟩
        | Remove r =>
          rw [hc] at h
          exact absurd h (by simp)

theorem goodEntry_intro {files : GenFiles} {k : String} {cp : CommandPos}
    {b : List Nat} {c : KvsCommand} {st : KvsSet}
    (hf : frameAt (fileOf files cp.geneeration) cp.pos = some b)
    (hd : decodeCmd b = some c) (hc : c.command = some (Command.Set st))
    (hk : st.key = k) (hv : c.verify_checksum = true) (hl : cp.len = 4 + b.length) :
    goodEntry files k cp = true := by
  unfold goodEntry
  rw [hf]
  dsimp only
  rw [hd]
  dsimp only
  rw [hc]
  simp [hk, hv, hl]

theorem goodEntry_of_extend {files files' : GenFiles} {k : String} {cp : CommandPos}
    (h : goodEntry files k cp = true)
    (hfile : ∃ ext, fileOf files' cp.geneeration = fileOf files cp.geneeration ++ ext) :
    goodEntry files' k cp = true := by
  obtain ⟨b, c, st, hf, hd, hc, hk, hv, hl⟩ := goodEntry_elim h
  obtain ⟨ext, hext⟩ := hfile
  exact goodEntry_intro (by rw [hext]; exact frameAt_append hf) hd hc hk hv hl

theorem entryCmd_of_extend {files files' : GenFiles} {cp : CommandPos} {b : List Nat}
    (hf : frameAt (fileOf files cp.geneeration) cp.pos = some b)
    (hfile : ∃ ext, fileOf files' cp.geneeration = fileOf files cp.geneeration ++ ext) :
    entryCmd files' cp = entryCmd files cp := by
  obtain ⟨ext, hext⟩ := hfile
  unfold entryCmd
  rw [hext, frameAt_append hf, hf]

theorem verify_set (key value : String) (sequence ts : Nat) :
    (KvsCommand.set key value sequence ts).verify_checksum = true := by
  unfold KvsCommand.set KvsCommand.verify_checksum
  simp

theorem verify_remove (key : String) (sequence ts : Nat) :
    (KvsCommand.remove key sequence ts).verify_checksum = true := by
  unfold KvsCommand.remove KvsCommand.verify_checksum
  simp

/-!
Size bounds: every record built from payloads within the spec's bounds fits
the 32-bit frame length prefix.
-/

theorem crc32_lt (l : List Nat) : crc32 l < 4294967296 := by
  unfold crc32
  have haux : ∀ (m : List Nat) (a : Nat), a < 4294967296 →
      m.foldl (fun h b => (h * 131 + b + 1) % 4294967296) a < 4294967296 := by
    intro m
    induction m with
    | nil => intro a ha; exact ha
    | cons x xs ih =>
      intro a _
      exact ih _ (Nat.mod_lt _ (by norm_num))
  exact haux l 5381 (by norm_num)

theorem varintAux_length_le (fuel : Nat) : ∀ (n k : Nat), 1 ≤ k → n < 128 ^ k →
    n ≤ fuel → (varintAux fuel n).length ≤ k := by
  induction fuel with
  | zero =>
    intro n k hk _ hf
    interval_cases n
    simpa [varintAux] using hk
  | succ fuel ih =>
    intro n k hk hn hf
    by_cases h : n < 128
    · simpa [varintAux, h] using hk
    · rw [varintAux, if_neg h]
      rcases k with _ | k
      · omega
      rcases k with _ | k
      · simp at hn
        omega
      simp only [List.length_cons]
      have hrec : (varintAux fuel (n / 128)).length ≤ k + 1 := by
        apply ih _ _ (by omega) _ (by omega)
        rw [Nat.div_lt_iff_lt_mul (by norm_num)]
        calc n < 128 ^ (k + 1 + 1) := hn
        _ = 128 ^ (k + 1) * 128 := by ring
      omega

theorem varint_length_le {n k : Nat} (hk : 1 ≤ k) (hn : n < 128 ^ k) :
    (varint n).length ≤ k := varintAux_length_le n n k hk hn le_rfl

theorem encodeCmd_set_fit (k v : String) (seq ts : Nat)
    (hts : ts < 2 ^ 64) (hseq : seq < 2 ^ 64)
    (hkv : (strBytes k).length + (strBytes v).length < 2 ^ 31) :
    (encodeCmd (KvsCommand.set k v seq ts)).length < 4294967296 := by
  have hts' : (varint ts).length ≤ 10 := varint_length_le (by norm_num)
    (by calc ts < 2 ^ 64 := hts
        _ ≤ 128 ^ 10 := by norm_num)
  have hseq' : (varint seq).length ≤ 10 := varint_length_le (by norm_num)
    (by calc seq < 2 ^ 64 := hseq
        _ ≤ 128 ^ 10 := by norm_num)
  have hck : (varint (calculate_checksum (Command.Set ⟨k, v, 0, 0⟩))).length ≤ 5 := by
    apply varint_length_le (by norm_num)
    calc calculate_checksum _ < 4294967296 := crc32_lt _
      _ ≤ 128 ^ 5 := by norm_num
  have hver : (varint CURRENT_SCHEMA_VERSION).length ≤ 5 :=
    varint_length_le (by norm_num) (by norm_num [CURRENT_SCHEMA_VERSION])
  have hkb : (varint (strBytes k).length).length ≤ 5 :=
    varint_length_le (by norm_num)
      (by calc (strBytes k).length < 2 ^ 31 := by omega
          _ ≤ 128 ^ 5 := by norm_num)
  have hvb : (varint (strBytes v).length).length ≤ 5 :=
    varint_length_le (by norm_num)
      (by calc (strBytes v).length < 2 ^ 31 := by omega
          _ ≤ 128 ^ 5 := by norm_num)
  have h0 : (varint 0).length ≤ 5 := varint_length_le (by norm_num) (by norm_num)
  have hek : (encStr k).length ≤ 5 + (strBytes k).length := by
    unfold encStr
    rw [List.length_append]
    omega
  have hev : (encStr v).length ≤ 5 + (strBytes v).length := by
    unfold encStr
    rw [List.length_append]
    omega
  show (varint ts ++ varint seq ++ varint (calculate_checksum (Command.Set ⟨k, v, 0, 0⟩)) ++
    varint CURRENT_SCHEMA_VERSION ++
    (1 :: (encStr k ++ encStr v ++ varint 0 ++ varint 0))).length < 4294967296
  simp only [List.length_append, List.length_cons]
  omega

theorem goodEntry_congr {files files' : GenFiles} (k : String) (cp : CommandPos)
    (h : ∀ g, fileOf files' g = fileOf files g) :
    goodEntry files' k cp = goodEntry files k cp := by
  unfold goodEntry
  rw [h]

theorem compactLoop_frames (compGen : Nat) (files : GenFiles) :
    ∀ (entries : Index) (np : Nat) (acc : List Nat) (upd : Index) (out : List Nat × Index),
    compactLoop compGen files entries np acc upd = .ok out →
    (∀ p ∈ entries, goodEntry files p.1 p.2 = true) →
    ∃ cs frames, out.1 = acc ++ frames.flatten ∧ List.Forall₂ FrameFor cs frames ∧
      ∀ c ∈ cs, ∃ st, c.command = some (Command.Set st) := by
  intro entries
  induction entries with
  | nil =>
    intro np acc upd out h _
    unfold compactLoop at h
    injection h with h
    subst h
    exact ⟨[], [], by simp, List.Forall₂.nil, by simp⟩
  | cons p rest ih =>
    obtain ⟨key, cp⟩ := p
    intro np acc upd out h hg
    obtain ⟨b, c, st, hf, hd, hcmd, hk, hv, hl⟩ :=
      goodEntry_elim (hg (key, cp) (List.mem_cons_self _ _))
    dsimp only at hf hl
    obtain ⟨h1, h2, h3⟩ := frameAt_eq_some hf
    unfold compactLoop at h
    dsimp only at h
    rw [if_pos h1, if_pos h2] at h
    obtain ⟨cs, frames, hout1, hff, hset⟩ :=
      ih _ _ _ _ h (fun q hq => hg q (List.mem_cons_of_mem _ hq))
    refine ⟨c :: cs,
      (byteSlice (fileOf files cp.geneeration) cp.pos 4 ++
        byteSlice (fileOf files cp.geneeration) (cp.pos + 4)
          (fromLE (byteSlice (fileOf files cp.geneeration) cp.pos 4))) :: frames,
      ?_, ?_, ?_⟩
    · rw [hout1]
      simp
    · refine List.Forall₂.cons ⟨byteSlice (fileOf files cp.geneeration) cp.pos 4,
        byteSlice (fileOf files cp.geneeration) (cp.pos + 4)
          (fromLE (byteSlice (fileOf files cp.geneeration) cp.pos 4)),
        rfl, byteSlice_length (by omega), ?_, ?_, hv⟩ hff
      · rw [byteSlice_length (by omega)]
      · rw [h3]
        exact hd
    · intro c' hc'
      rcases List.mem_cons.mp hc' with h | h
      · exact ⟨st, h ▸ hcmd⟩
      · exact hset c' h

theorem genLookup_mem {fs : GenFiles} {g : Nat} {f : List Nat}
    (h : genLookup fs g = some f) : (g, f) ∈ fs := by
  induction fs with
  | nil => simp [genLookup] at h
  | cons p rest ih =>
    obtain ⟨g0, f0⟩ := p
    unfold genLookup at h
    by_cases hg : g0 = g
    · rw [if_pos hg] at h
      injection h with h
      subst h
      subst hg
      exact List.mem_cons_self _ _
    · rw [if_neg hg] at h
      exact List.mem_cons_of_mem _ (ih h)

theorem fileOf_prep (s : KvState) (q : Nat) :
    fileOf (genSet (genSet s.files (s.current_generation + 2)
      (fileOf s.files (s.current_generation + 2)))
      (s.current_generation + 1) (fileOf s.files (s.current_generation + 1))) q
      = fileOf s.files q := by
  rw [fileOf_genSet, fileOf_genSet]
  split_ifs with h1 h2
  · rw [h1]
  · rw [h2]
  · rfl

theorem fresh_compaction_file (s : KvState)
    (hfb : ∀ p ∈ s.files, p.1 ≤ s.current_generation) :
    fileOf s.files (s.current_generation + 1) = [] := by
  unfold fileOf
  cases hg : genLookup s.files (s.current_generation + 1) with
  | none => rfl
  | some f =>
    have := hfb _ (genLookup_mem hg)
    omega

theorem compactOp_inv (s : KvState) (hInv : StoreInv s) :
    (compactOp s).2 = none ∧
    StoreInv (compactOp s).1 ∧
    (∀ q, liveValue (compactOp s).1 q = liveValue s q) ∧
    (compactOp s).1.current_sequence = s.current_sequence ∧
    (compactOp s).1.current_generation = s.current_generation + 2 ∧
    AllSetFrames (fileOf (compactOp s).1.files (s.current_generation + 1)) := by
  obtain ⟨hn, hfb, hge⟩ := hInv
  have hfresh : fileOf s.files (s.current_generation + 1) = [] :=
    fresh_compaction_file s hfb
  have hge0 : ∀ p ∈ s.index,
      goodEntry (genSet (genSet s.files (s.current_generation + 2)
        (fileOf s.files (s.current_generation + 2)))
        (s.current_generation + 1) (fileOf s.files (s.current_generation + 1))) p.1 p.2 = true := by
    intro p hp
    rw [goodEntry_congr _ _ (fileOf_prep s)]
    exact hge p hp
  obtain ⟨out, hloop⟩ := compactLoop_total (s.current_generation + 1) _ s.index 0 [] []
    (fun p hp => by
      obtain ⟨b, c, st, hf, _⟩ := goodEntry_elim (hge0 p hp)
      exact ⟨b, hf⟩)
  obtain ⟨bytes, upd⟩ := out
  obtain ⟨hext, hkeys, hupd, hents, hout⟩ :=
    compactLoop_ok_spec (s.current_generation + 1) _ s.index [] [] (bytes, upd) hloop
  have hkeys2 : upd.map Prod.fst = s.index.map Prod.fst := by
    rw [show upd.map Prod.fst = (bytes, upd).2.map Prod.fst from rfl, hkeys]
    exact List.nil_append _
  have hn2 : (upd.map Prod.fst).Nodup := by
    rw [hkeys2]
    exact hn
  unfold compactOp
  dsimp only
  rw [hloop]
  dsimp only
  have hfilebytes : fileOf (List.filter (fun p => decide ¬ p.1 < s.current_generation + 1)
      (genSet (genSet (genSet s.files (s.current_generation + 2)
          (fileOf s.files (s.current_generation + 2)))
          (s.current_generation + 1) (fileOf s.files (s.current_generation + 1)))
        (s.current_generation + 1)
        (fileOf (genSet (genSet s.files (s.current_generation + 2)
            (fileOf s.files (s.current_generation + 2)))
            (s.current_generation + 1) (fileOf s.files (s.current_generation + 1)))
          (s.current_generation + 1) ++ bytes)))
      (s.current_generation + 1) = bytes := by
    rw [show (fun p : Nat × List Nat => decide ¬ p.1 < s.current_generation + 1) =
      (fun p : Nat × List Nat => ¬ p.1 < s.current_generation + 1) from rfl]
    rw [fileOf_filter_ge, if_neg (lt_irrefl _), fileOf_genSet, if_pos rfl, fileOf_prep, hfresh]
    rfl
  have hidxkeys : ((upd.foldl (fun ix p => (idxInsert ix p.1 p.2).1) s.index).map Prod.fst) =
      s.index.map Prod.fst :=
    keys_foldl_insert upd s.index (fun k hk => by rw [← hkeys2]; exact hk)
  have hmem_upd : ∀ q ∈ upd.foldl (fun ix p => (idxInsert ix p.1 p.2).1) s.index, q ∈ upd := by
    intro q hq
    obtain ⟨qk, qv⟩ := q
    have hql : idxLookup (upd.foldl (fun ix p => (idxInsert ix p.1 p.2).1) s.index) qk =
        some qv :=
      idxLookup_eq_of_mem_nodup (by rw [hidxkeys]; exact hn) hq
    have hkmem : qk ∈ upd.map Prod.fst := by
      rw [hkeys2, ← hidxkeys]
      exact List.mem_map.mpr ⟨(qk, qv), hq, rfl⟩
    obtain ⟨v, hv⟩ := Option.isSome_iff_exists.mp (idxLookup_isSome.mpr hkmem)
    have h2 := idxLookup_foldl_insert_of_some upd s.index qk v hn2 hv
    rw [hql] at h2
    injection h2 with h2
    subst h2
    exact idxLookup_mem hv
  have hgood_upd : ∀ q ∈ upd, ∃ p ∈ s.index, ∃ b c st,
      q.1 = p.1 ∧ q.2.geneeration = s.current_generation + 1 ∧
      frameAt bytes q.2.pos = some b ∧ q.2.len = 4 + b.length ∧
      decodeCmd b = some c ∧ c.command = some (Command.Set st) ∧ st.key = p.1 ∧
      c.verify_checksum = true := by
    intro q hq
    rcases hout q hq with hql | ⟨p, hp, b, hb1, hb2, hb3, hb4, hb5⟩
    · exact absurd hql (by simp)
    · obtain ⟨b0, c, st, hf0, hd0, hc0, hk0, hv0, _⟩ := goodEntry_elim (hge p hp)
      have hbb : b = b0 := by
        rw [fileOf_prep] at hb3
        rw [hb3] at hf0
        injection hf0
      subst hbb
      exact ⟨p, hp, b, c, st, hb1, hb2, hb5, hb4, hd0, hc0, hk0, hv0⟩
  refine ⟨rfl, ⟨?_, ?_, ?_⟩, ?_, rfl, rfl, ?_⟩
  · show ((upd.foldl (fun ix p => (idxInsert ix p.1 p.2).1) s.index).map Prod.fst).Nodup
    rw [hidxkeys]
    exact hn
  · intro p hp
    show p.1 ≤ s.current_generation + 2
    rcases List.mem_filter.mp hp with ⟨hp1, _⟩
    rcases genSet_mem hp1 with h | h
    · omega
    rcases genSet_mem h with h | h
    · omega
    rcases genSet_mem h with h | h
    · omega
    · exact Nat.le_trans (hfb p h) (by omega)
  · intro q hq
    obtain ⟨p, hp, b, c, st, hq1, hq2, hq3, hq4, hq5, hq6, hq7, hq8⟩ :=
      hgood_upd q (hmem_upd q hq)
    refine @goodEntry_intro _ _ _ b c st ?_ hq5 hq6 (by rw [hq7, ← hq1]) hq8 hq4
    rw [hq2]
    show frameAt (fileOf (List.filter _ _) (s.current_generation + 1)) q.2.pos = some b
    rw [hfilebytes]
    exact hq3
  · intro q
    unfold liveValue
    dsimp only
    cases hl : idxLookup s.index q with
    | none =>
      have hnone : idxLookup upd q = none := by
        cases hu : idxLookup upd q with
        | none => rfl
        | some v =>
          have : q ∈ upd.map Prod.fst := idxLookup_isSome.mp (by rw [hu]; rfl)
          rw [hkeys2] at this
          have := idxLookup_isSome.mpr this
          rw [hl] at this
          exact absurd this (by simp)
      rw [idxLookup_foldl_insert_of_none upd s.index q hnone, hl]
    | some cp =>
      obtain ⟨cp', b, hmem', hgen', hfr0, hlen', hfrnew, _⟩ := hents (q, cp) (idxLookup_mem hl)
      have hlk' : idxLookup upd q = some cp' := idxLookup_eq_of_mem_nodup hn2 hmem'
      rw [idxLookup_foldl_insert_of_some upd s.index q cp' hn2 hlk']
      dsimp only
      obtain ⟨b0, c, st, hf0, hd0, hc0, hk0, hv0, _⟩ :=
        goodEntry_elim (hge (q, cp) (idxLookup_mem hl))
      dsimp only at hf0
      have hbb : b = b0 := by
        rw [fileOf_prep] at hfr0
        rw [hfr0] at hf0
        injection hf0
      subst hbb
      have hec : entryCmd (List.filter (fun p => decide ¬ p.1 < s.current_generation + 1)
          (genSet (genSet (genSet s.files (s.current_generation + 2)
              (fileOf s.files (s.current_generation + 2)))
              (s.current_generation + 1) (fileOf s.files (s.current_generation + 1)))
            (s.current_generation + 1)
            (fileOf (genSet (genSet s.files (s.current_generation + 2)
                (fileOf s.files (s.current_generation + 2)))
                (s.current_generation + 1) (fileOf s.files (s.current_generation + 1)))
              (s.current_generation + 1) ++ bytes))) cp' = some c := by
        unfold entryCmd
        rw [hgen', hfilebytes, hfrnew]
        exact hd0
      rw [hec]
      have hec0 : entryCmd s.files cp = some c := by
        unfold entryCmd
        rw [hf0]
        exact hd0
      rw [hec0]
  · show AllSetFrames (fileOf (List.filter _ _) (s.current_generation + 1))
    rw [hfilebytes]
    obtain ⟨cs, frames, hb, hff, hset⟩ :=
      compactLoop_frames (s.current_generation + 1) _ s.index 0 [] [] (bytes, upd) hloop hge0
    exact ⟨cs, frames, by rw [show bytes = (bytes, upd).1 from rfl, hb]; rfl, hff, hset⟩

theorem setOp_spec (s : KvState) (key value : String) (ts : Nat)
    (hInv : StoreInv s)
    (hts : ts < 2 ^ 64) (hseq : s.current_sequence.getD 0 + 1 < 2 ^ 64)
    (hkv : (strBytes key).length + (strBytes value).length < 2 ^ 31) :
    (setOp s key value ts).2 = none ∧
    StoreInv (setOp s key value ts).1 ∧
    (∀ q, liveValue (setOp s key value ts).1 q =
      if q = key then some value else liveValue s q) ∧
    (setOp s key value ts).1.current_sequence = some (s.current_sequence.getD 0 + 1) := by
  obtain ⟨hn, hfb, hge⟩ := hInv
  have hfit : (encodeCmd (KvsCommand.set key value (s.current_sequence.getD 0 + 1) ts)).length
      < 4294967296 :=
    encodeCmd_set_fit key value _ ts hts (by omega) hkv
  set seq := s.current_sequence.getD 0 + 1 with hseqd
  set cmd := KvsCommand.set key value seq ts with hcmddef
  set cb := encodeCmd cmd with hcbdef
  set frame := toLE 4 cb.length ++ cb with hframedef
  set file := fileOf s.files s.current_generation with hfiledef
  set cpnew : CommandPos := ⟨s.current_generation, file.length, frame.length⟩ with hcpnewdef
  set s1 : KvState := { s with
      files := genSet s.files s.current_generation (file ++ frame)
      index := (idxInsert s.index key cpnew).1
      uncompacted := s.uncompacted + ((idxInsert s.index key cpnew).2.elim 0 (·.len))
      current_sequence := some seq } with hs1def
  have hsetOp : setOp s key value ts =
      if COMPACTION_THRESHOLD < s1.uncompacted then compactOp s1 else (s1, none) := rfl
  have hext1 : ∀ g, ∃ ext,
      fileOf (genSet s.files s.current_generation (file ++ frame)) g =
        fileOf s.files g ++ ext := by
    intro g
    rw [fileOf_genSet]
    by_cases hg : s.current_generation = g
    · rw [if_pos hg]
      exact ⟨frame, by rw [hfiledef, hg]⟩
    · rw [if_neg hg]
      exact ⟨[], by simp⟩
  have hnewgood : goodEntry s1.files key cpnew = true := by
    refine @goodEntry_intro _ _ _ cb cmd ⟨key, value, 0, 0⟩ ?_
      (decodeCmd_encodeCmd cmd) rfl rfl (verify_set key value seq ts) ?_
    · show frameAt (fileOf (genSet s.files s.current_generation (file ++ frame))
        cpnew.geneeration) cpnew.pos = some cb
      rw [show cpnew.geneeration = s.current_generation from rfl, fileOf_genSet, if_pos rfl]
      exact frameAt_last file cb hfit
    · show cpnew.len = 4 + cb.length
      rw [hcpnewdef]
      dsimp only
      rw [hframedef]
      simp [toLE_length]
  have hInv1 : StoreInv s1 := by
    refine ⟨?_, ?_, ?_⟩
    · show ((idxInsert s.index key cpnew).1.map Prod.fst).Nodup
      rw [idxInsert_keys]
      by_cases hmem : key ∈ s.index.map Prod.fst
      · rw [if_pos hmem]
        exact hn
      · rw [if_neg hmem]
        refine List.Nodup.append hn (List.nodup_singleton _) ?_
        intro a ha hb
        rw [List.mem_singleton.mp hb] at ha
        exact hmem ha
    · intro p hp
      show p.1 ≤ s.current_generation
      rcases genSet_mem hp with h | h
      · omega
      · exact hfb p h
    · intro p hp
      rcases idxInsert_mem hp with h | h
      · rw [h]
        exact hnewgood
      · exact goodEntry_of_extend (hge p h) (hext1 p.2.geneeration)
  have hcmdnew : entryCmd (genSet s.files s.current_generation (file ++ frame)) cpnew
      = some cmd := by
    unfold entryCmd
    rw [show cpnew.geneeration = s.current_generation from rfl]
    show ((frameAt (fileOf (genSet s.files s.current_generation (file ++ frame))
      s.current_generation) cpnew.pos).bind decodeCmd) = some cmd
    rw [fileOf_genSet, if_pos rfl]
    rw [show cpnew.pos = file.length from rfl, hframedef]
    rw [frameAt_last file cb hfit]
    exact decodeCmd_encodeCmd cmd
  have hlv1 : ∀ q, liveValue s1 q = if q = key then some value else liveValue s q := by
    intro q
    unfold liveValue
    dsimp only
    rw [idxLookup_insert]
    by_cases hq : key = q
    · rw [if_pos hq, if_pos hq.symm]
      dsimp only
      rw [hcmdnew]
      rfl
    · rw [if_neg hq, if_neg (fun he => hq he.symm)]
      cases hl : idxLookup s.index q with
      | none => rfl
      | some cp =>
        obtain ⟨b, c, st, hf, hd, hc, hk, hv, hlen⟩ :=
          goodEntry_elim (hge (q, cp) (idxLookup_mem hl))
        dsimp only at hf
        dsimp only
        rw [@entryCmd_of_extend s.files (genSet s.files s.current_generation (file ++ frame))
          cp b hf (hext1 cp.geneeration)]
  by_cases hth : COMPACTION_THRESHOLD < s1.uncompacted
  · rw [hsetOp, if_pos hth]
    obtain ⟨hc1, hc2, hc3, hc4, _, _⟩ := compactOp_inv s1 hInv1
    exact ⟨hc1, hc2, fun q => by rw [hc3 q, hlv1 q], by rw [hc4]⟩
  · rw [hsetOp, if_neg hth]
    exact ⟨rfl, hInv1, hlv1, rfl⟩

theorem removeOp_spec (s : KvState) (key : String) (ts : Nat) (hInv : StoreInv s) :
    StoreInv (removeOp s key ts).1 ∧
    (∀ q, q ≠ key → liveValue (removeOp s key ts).1 q = liveValue s q) ∧
    (removeOp s key ts).1.current_sequence.getD 0 ≤ s.current_sequence.getD 0 + 1 := by
  obtain ⟨hn, hfb, hge⟩ := hInv
  cases hl : idxLookup s.index key with
  | none =>
    have hrem : removeOp s key ts = (s, some .KeyNotFound) := by
      unfold removeOp
      rw [hl]
    rw [hrem]
    refine ⟨⟨hn, hfb, hge⟩, fun q _ => rfl, ?_⟩
    show s.current_sequence.getD 0 ≤ s.current_sequence.getD 0 + 1
    omega
  | some cp0 =>
    set seq := s.current_sequence.getD 0 + 1 with hseqd
    set cmd := KvsCommand.remove key seq ts with hcmddef
    set cb := encodeCmd cmd with hcbdef
    set frame := toLE 4 cb.length ++ cb with hframedef
    set file := fileOf s.files s.current_generation with hfiledef
    set s1 : KvState := { s with
        files := genSet s.files s.current_generation (file ++ frame)
        index := (idxRemove s.index key).1
        uncompacted := s.uncompacted + ((idxRemove s.index key).2.elim 0 (·.len))
        current_sequence := some seq } with hs1def
    have hrem : removeOp s key ts =
        if COMPACTION_THRESHOLD < s1.uncompacted then compactOp s1 else (s1, none) := by
      unfold removeOp
      rw [hl]
    have hext1 : ∀ g, ∃ ext,
        fileOf (genSet s.files s.current_generation (file ++ frame)) g =
          fileOf s.files g ++ ext := by
      intro g
      rw [fileOf_genSet]
      by_cases hg : s.current_generation = g
      · rw [if_pos hg]
        exact ⟨frame, by rw [hfiledef, hg]⟩
      · rw [if_neg hg]
        exact ⟨[], by simp⟩
    have hInv1 : StoreInv s1 := by
      refine ⟨?_, ?_, ?_⟩
      · show ((idxRemove s.index key).1.map Prod.fst).Nodup
        exact (idxRemove_keys_sublist s.index key).nodup hn
      · intro p hp
        show p.1 ≤ s.current_generation
        rcases genSet_mem hp with h | h
        · omega
        · exact hfb p h
      · intro p hp
        exact goodEntry_of_extend (hge p (idxRemove_mem hp)) (hext1 p.2.geneeration)
    have hlv1 : ∀ q, q ≠ key → liveValue s1 q = liveValue s q := by
      intro q hq
      unfold liveValue
      dsimp only
      rw [idxLookup_remove hn, if_neg (fun he => hq he.symm)]
      cases hlq : idxLookup s.index q with
      | none => rfl
      | some cp =>
        obtain ⟨b, c, st, hf, hd, hc, hk, hv, hlen⟩ :=
          goodEntry_elim (hge (q, cp) (idxLookup_mem hlq))
        dsimp only at hf
        dsimp only
        rw [@entryCmd_of_extend s.files (genSet s.files s.current_generation (file ++ frame))
          cp b hf (hext1 cp.geneeration)]
    by_cases hth : COMPACTION_THRESHOLD < s1.uncompacted
    · rw [hrem, if_pos hth]
      obtain ⟨_, hc2, hc3, hc4, _, _⟩ := compactOp_inv s1 hInv1
      refine ⟨hc2, fun q hq => by rw [hc3 q, hlv1 q hq], ?_⟩
      rw [hc4]
      show s.current_sequence.getD 0 + 1 ≤ s.current_sequence.getD 0 + 1
      exact le_rfl
    · rw [hrem, if_neg hth]
      refine ⟨hInv1, hlv1, ?_⟩
      show s.current_sequence.getD 0 + 1 ≤ s.current_sequence.getD 0 + 1
      exact le_rfl

theorem getOp_correct (s : KvState) (key : String) (hInv : StoreInv s) :
    (getOp s key).1 = .ok (liveValue s key) := by
  obtain ⟨hn, hfb, hge⟩ := hInv
  unfold getOp liveValue
  cases hl : idxLookup s.index key with
  | none => rfl
  | some cp =>
    obtain ⟨b, c, st, hf, hd, hc, hk, hv, hlen⟩ :=
      goodEntry_elim (hge (key, cp) (idxLookup_mem hl))
    dsimp only at hf
    obtain ⟨h1, h2, h3⟩ := frameAt_eq_some hf
    dsimp only
    rw [if_neg (by omega), if_neg (by omega), h3, hd]
    dsimp only
    have hec : entryCmd s.files cp = some c := by
      unfold entryCmd
      rw [hf]
      exact hd
    rw [hv, if_pos rfl, hec]
    dsimp only
    rw [hc]

theorem run_preserves (K V : String) :
    ∀ (ops : List WriteOp) (s : KvState),
    StoreInv s → liveValue s K = some V →
    (∀ op ∈ ops, opSmall op ∧ opKey op ≠ K) →
    s.current_sequence.getD 0 + ops.length < 2 ^ 64 →
    StoreInv (execOps s ops) ∧ liveValue (execOps s ops) K = some V := by
  intro ops
  induction ops with
  | nil =>
    intro s h1 h2 _ _
    exact ⟨h1, h2⟩
  | cons op rest ih =>
    intro s hInv hlv hops hseq
    obtain ⟨hsmall, hkey⟩ := hops op (List.mem_cons_self _ _)
    have hrest := fun o ho => hops o (List.mem_cons_of_mem _ ho)
    show StoreInv (execOps (applyOp s op).1 rest) ∧
      liveValue (execOps (applyOp s op).1 rest) K = some V
    cases op with
    | set k v ts =>
      obtain ⟨hts, hkv⟩ := hsmall
      have hs := setOp_spec s k v ts hInv hts
        (by simp only [List.length_cons] at hseq; omega) hkv
      have hlv' : liveValue (setOp s k v ts).1 K = some V := by
        rw [hs.2.2.1 K, if_neg (fun he => hkey (by rw [he]; rfl))]
        exact hlv
      have hcs' : (setOp s k v ts).1.current_sequence.getD 0 + rest.length < 2 ^ 64 := by
        rw [hs.2.2.2]
        show s.current_sequence.getD 0 + 1 + rest.length < 2 ^ 64
        simp only [List.length_cons] at hseq
        omega
      exact ih _ hs.2.1 hlv' hrest hcs'
    | remove k ts =>
      have hs := removeOp_spec s k ts hInv
      have hlv' : liveValue (removeOp s k ts).1 K = some V := by
        rw [hs.2.1 K (fun he => hkey (by rw [he]; rfl))]
        exact hlv
      have hcs' : (removeOp s k ts).1.current_sequence.getD 0 + rest.length < 2 ^ 64 := by
        have := hs.2.2
        simp only [List.length_cons] at hseq
        omega
      exact ih _ hs.1 hlv' hrest hcs'

/-- C1: starting from any well-formed store, after `set(K, V)` returns Ok,
`get(K)` returns `Some(V)`, and it continues to do so across any further
sequence of writes that touch only other keys (including the compactions
they may trigger), i.e. until a subsequent `set(K, _)` or `remove(K)` on the
same key.  Payloads are bounded so every record fits the 32-bit frame
prefix, as the spec's data model requires. -/
theorem set_then_get (s : KvState) (K V : String) (ts : Nat) (ops : List WriteOp)
    (hInv : StoreInv s)
    (hsmall : opSmall (WriteOp.set K V ts))
    (hops : ∀ op ∈ ops, opSmall op ∧ opKey op ≠ K)
    (hseq : s.current_sequence.getD 0 + 1 + ops.length < 2 ^ 64) :
    (setOp s K V ts).2 = none ∧
    (getOp (execOps (setOp s K V ts).1 ops) K).1 = .ok (some V) := by
  obtain ⟨hts, hkv⟩ := hsmall
  have hs := setOp_spec s K V ts hInv hts (by omega) hkv
  have hlv1 : liveValue (setOp s K V ts).1 K = some V := by
    rw [hs.2.2.1 K, if_pos rfl]
  have hcs : (setOp s K V ts).1.current_sequence.getD 0 + ops.length < 2 ^ 64 := by
    rw [hs.2.2.2]
    show s.current_sequence.getD 0 + 1 + ops.length < 2 ^ 64
    exact hseq
  obtain ⟨hInv2, hlv2⟩ := run_preserves K V ops (setOp s K V ts).1 hs.2.1 hlv1 hops hcs
  refine ⟨hs.1, ?_⟩
  rw [getOp_correct _ _ hInv2, hlv2]

/-- Witness for `set_then_get`: a fresh store, one set of another key and a
remove of that key in between. -/
theorem set_then_get_witness :
    (setOp emptyStore "k" "v" 0).2 = none ∧
    (getOp (execOps (setOp emptyStore "k" "v" 0).1
      [WriteOp.set "x" "y" 0, WriteOp.remove "x" 0]) "k").1 = .ok (some "v") :=
  set_then_get emptyStore "k" "v" 0 [WriteOp.set "x" "y" 0, WriteOp.remove "x" 0]
    (by decide) (by decide) (by decide) (by decide)

theorem load_v2_good (files : GenFiles) (g : Nat) :
    ∀ (rem : List Nat) (pos : Nat) (ix : Index) (unc hi : Nat),
    ∀ (out : Index × Nat × Nat),
    rem = (fileOf files g).drop pos →
    load_v2 g rem pos ix unc hi = .ok out →
    (∀ p ∈ ix, goodEntry files p.1 p.2 = true) →
    (ix.map Prod.fst).Nodup →
    (∀ p ∈ out.1, goodEntry files p.1 p.2 = true) ∧ (out.1.map Prod.fst).Nodup := by
  intro rem pos ix unc hi
  induction rem, pos, ix, unc, hi using load_v2.induct g with
  | case1 rem pos ix unc hi h4 =>
    intro out hrem hload hge hn
    rw [load_v2_stop g rem pos ix unc hi h4] at hload
    injection hload with hload
    subst hload
    exact ⟨hge, hn⟩
  | case2 rem pos ix unc hi h4 lb ml hov =>
    intro out hrem hload _ _
    rw [load_v2] at hload
    rw [if_neg h4] at hload
    dsimp only at hload
    rw [if_pos hov] at hload
    exact absurd hload (by simp)
  | case3 rem pos ix unc hi h4 lb ml hov mb hdec =>
    intro out hrem hload _ _
    rw [load_v2] at hload
    rw [if_neg h4] at hload
    dsimp only at hload
    rw [if_neg hov, hdec] at hload
    exact absurd hload (by simp)
  | case4 rem pos ix unc hi h4 lb ml hov mb cmd hdec hver =>
    intro out hrem hload _ _
    rw [load_v2] at hload
    rw [if_neg h4] at hload
    dsimp only at hload
    rw [if_neg hov, hdec] at hload
    dsimp only at hload
    rw [hver] at hload
    exact absurd hload (by simp)
  | case5 rem pos ix unc hi h4 lb ml hov mb cmd hdec hver hi1 st hcmd ins ih =>
    intro out hrem hload hge hn
    have hv : cmd.verify_checksum = true := by
      cases hb : cmd.verify_checksum
      · exact absurd hb hver
      · rfl
    have hlen : rem.length = (fileOf files g).length - pos := by
      rw [hrem, List.length_drop]
    have hple : pos + 4 ≤ (fileOf files g).length := by
      by_cases hp : pos ≤ (fileOf files g).length
      · omega
      · rw [List.drop_eq_nil_of_le (by omega)] at hrem
        rw [hrem] at h4
        simp at h4
    have htake : rem.take 4 = byteSlice (fileOf files g) pos 4 := by
      rw [hrem]
      rfl
    have hdroplen : (rem.drop 4).length = (fileOf files g).length - pos - 4 := by
      rw [List.length_drop]
      omega
    unfold_let ml lb at hov
    unfold_let mb ml lb at hdec
    have hmsgle : pos + 4 + fromLE (rem.take 4) ≤ (fileOf files g).length := by
      rw [hdroplen] at hov
      omega
    have hmsgbytes : (rem.drop 4).take (fromLE (rem.take 4)) =
        byteSlice (fileOf files g) (pos + 4) (fromLE (rem.take 4)) := by
      rw [hrem, List.drop_drop]
      rfl
    have hframe : frameAt (fileOf files g) pos =
        some ((rem.drop 4).take (fromLE (rem.take 4))) := by
      unfold frameAt
      rw [← htake]
      rw [if_pos ⟨hple, hmsgle⟩]
      rw [← hmsgbytes]
    have hgood : goodEntry files st.key ⟨g, pos, 4 + fromLE (rem.take 4)⟩ = true := by
      refine @goodEntry_intro _ _ _ ((rem.drop 4).take (fromLE (rem.take 4))) cmd
        st hframe hdec hcmd rfl hv ?_
      show 4 + fromLE (rem.take 4) = 4 + ((rem.drop 4).take (fromLE (rem.take 4))).length
      rw [List.length_take]
      omega
    rw [load_v2_step_set g rem pos ix unc hi cmd st h4 hov hdec hv hcmd] at hload
    have hrem' : (rem.drop 4).drop (fromLE (rem.take 4)) =
        (fileOf files g).drop (pos + 4 + fromLE (rem.take 4)) := by
      rw [hrem, List.drop_drop, List.drop_drop]
      congr 1
      omega
    refine ih out hrem' hload ?_ ?_
    · intro p hp
      rcases idxInsert_mem hp with h | h
      · rw [h]
        exact hgood
      · exact hge p h
    · rw [idxInsert_keys]
      by_cases hmem : st.key ∈ ix.map Prod.fst
      · rw [if_pos hmem]
        exact hn
      · rw [if_neg hmem]
        refine List.Nodup.append hn (List.nodup_singleton _) ?_
        intro a ha hb
        rw [List.mem_singleton.mp hb] at ha
        exact hmem ha
  | case6 rem pos ix unc hi h4 lb ml hov mb cmd hdec hver hi1 r hcmd rm ih =>
    intro out hrem hload hge hn
    have hv : cmd.verify_checksum = true := by
      cases hb : cmd.verify_checksum
      · exact absurd hb hver
      · rfl
    rw [load_v2_step_remove g rem pos ix unc hi cmd r h4 hov hdec hv hcmd] at hload
    have hrem' : (rem.drop 4).drop (fromLE (rem.take 4)) =
        (fileOf files g).drop (pos + 4 + fromLE (rem.take 4)) := by
      have hlen : rem.length = (fileOf files g).length - pos := by
        rw [hrem, List.length_drop]
      rw [hrem, List.drop_drop, List.drop_drop]
      congr 1
      omega
    refine ih out hrem' hload ?_ ?_
    · intro p hp
      exact hge p (idxRemove_mem hp)
    · exact (idxRemove_keys_sublist ix r.key).nodup hn
  | case7 rem pos ix unc hi h4 lb ml hov mb cmd hdec hver hcmd =>
    intro out hrem hload _ _
    rw [load_v2] at hload
    rw [if_neg h4] at hload
    dsimp only at hload
    rw [if_neg hov, hdec] at hload
    dsimp only at hload
    have hv : cmd.verify_checksum = true := by
      cases hb : cmd.verify_checksum
      · exact absurd hb hver
      · rfl
    rw [hv] at hload
    exact absurd hload (by simp [hcmd])

theorem loadAll_good (files : GenFiles) :
    ∀ (dirs : GenFiles) (ix : Index) (unc hi : Nat) (out : Index × Nat × Nat),
    loadAll dirs ix unc hi = .ok out →
    (∀ p ∈ dirs, fileOf files p.1 = p.2) →
    (∀ p ∈ ix, goodEntry files p.1 p.2 = true) →
    (ix.map Prod.fst).Nodup →
    (∀ p ∈ out.1, goodEntry files p.1 p.2 = true) ∧ (out.1.map Prod.fst).Nodup := by
  intro dirs
  induction dirs with
  | nil =>
    intro ix unc hi out h _ hge hn
    unfold loadAll at h
    injection h with h
    subst h
    exact ⟨hge, hn⟩
  | cons p rest ih =>
    obtain ⟨g, f⟩ := p
    intro ix unc hi out h hfiles hge hn
    unfold loadAll at h
    cases hl : load_v2 g f 0 ix 0 0 with
    | error e =>
      rw [hl] at h
      exact absurd h (by simp)
    | ok o =>
      rw [hl] at h
      dsimp only at h
      have hf : f = (fileOf files g).drop 0 := by
        rw [List.drop_zero]
        exact (hfiles (g, f) (List.mem_cons_self _ _)).symm
      obtain ⟨hge', hn'⟩ := load_v2_good files g f 0 ix 0 0 o hf hl hge hn
      exact ih o.1 _ _ out h (fun q hq => hfiles q (List.mem_cons_of_mem _ hq)) hge' hn'

theorem pairwise_le_getLast : ∀ (l : List Nat), l.Pairwise (· < ·) →
    ∀ x ∈ l, x ≤ l.getLast?.getD 0 := by
  intro l
  induction l with
  | nil =>
    intro _ x hx
    simp at hx
  | cons a rest ih =>
    intro hs x hx
    rw [List.pairwise_cons] at hs
    cases rest with
    | nil =>
      rcases List.mem_cons.mp hx with h | h
      · subst h
        simp
      · simp at h
    | cons r rs =>
      rw [List.getLast?_cons_cons]
      cases hgl2 : (r :: rs).getLast? with
      | none =>
        simp at hgl2
      | some m =>
        have hm : m ∈ r :: rs := by
          rcases List.mem_getLast?_eq_getLast
              (show m ∈ (r :: rs).getLast? by rw [Option.mem_def, hgl2]) with ⟨h, hx⟩
          rw [hx]
          exact List.getLast_mem h
        rcases List.mem_cons.mp hx with h | h
        · subst h
          have := hs.1 m hm
          simp
          omega
        · have := ih hs.2 x h
          rw [hgl2] at this
          simpa using this

theorem genLookup_eq_of_mem_nodup {fs : GenFiles} {g : Nat} {f : List Nat}
    (hn : (fs.map Prod.fst).Nodup) (h : (g, f) ∈ fs) :
    genLookup fs g = some f := by
  induction fs with
  | nil => simp at h
  | cons p rest ih =>
    obtain ⟨g0, f0⟩ := p
    simp only [List.map_cons, List.nodup_cons] at hn
    rcases List.mem_cons.mp h with heq | hmem
    · injection heq with h1 h2
      subst h1
      subst h2
      simp [genLookup]
    · unfold genLookup
      have hne : g0 ≠ g := by
        intro he
        subst he
        exact hn.1 (List.mem_map.mpr ⟨(g0, f), hmem, rfl⟩)
      rw [if_neg hne]
      exact ih hn.2 hmem

theorem openStore_inv (dir : GenFiles) (s : KvState)
    (hsorted : dir.Pairwise (fun a b => a.1 < b.1))
    (h : openStore dir = .ok s) : StoreInv s := by
  have hkeysnodup : (dir.map Prod.fst).Nodup := by
    have hpw : (dir.map Prod.fst).Pairwise (· < ·) := by
      rw [List.pairwise_map]
      exact hsorted
    exact hpw.imp (fun hab => Nat.ne_of_lt hab)
  have hbound : ∀ p ∈ dir, p.1 ≤ ((dir.map Prod.fst).getLast?.getD 0) := by
    intro p hp
    refine pairwise_le_getLast (dir.map Prod.fst) ?_ p.1 (List.mem_map.mpr ⟨p, hp, rfl⟩)
    rw [List.pairwise_map]
    exact hsorted
  unfold openStore at h
  cases hload : loadAll dir [] 0 0 with
  | error e =>
    rw [hload] at h
    exact absurd h (by simp)
  | ok out =>
    rw [hload] at h
    dsimp only at h
    injection h with h
    subst h
    have hgood : (∀ p ∈ out.1,
        goodEntry (genSet dir (((dir.map Prod.fst).getLast?.getD 0) + 1)
          (fileOf dir (((dir.map Prod.fst).getLast?.getD 0) + 1))) p.1 p.2 = true) ∧
        (out.1.map Prod.fst).Nodup := by
      refine loadAll_good _ dir [] 0 0 out hload ?_ (by simp) List.nodup_nil
      intro p hp
      obtain ⟨pg, pf⟩ := p
      rw [fileOf_genSet, if_neg (by have := hbound (pg, pf) hp; simp only at this; omega)]
      unfold fileOf
      rw [genLookup_eq_of_mem_nodup hkeysnodup hp]
      rfl
    refine ⟨hgood.2, ?_, hgood.1⟩
    intro p hp
    show p.1 ≤ (dir.map Prod.fst).getLast?.getD 0 + 1
    rcases genSet_mem hp with h | h
    · omega
    · have := hbound p h
      omega

/-- C9: every operation preserves the index invariant — recovery establishes
it, set and remove (including any compaction they trigger) preserve it, so
each key present in the index always maps to the location of a valid
checksum-correct Set record of that key; consequently compaction, which
copies exactly the records the index references, succeeds and writes a
compaction file consisting solely of Set records. -/
theorem index_invariant_preserved :
    (∀ (dir : GenFiles) (s : KvState), dir.Pairwise (fun a b => a.1 < b.1) →
      openStore dir = .ok s → StoreInv s) ∧
    (∀ (s : KvState) (key value : String) (ts : Nat), StoreInv s →
      ts < 2 ^ 64 → s.current_sequence.getD 0 + 1 < 2 ^ 64 →
      (strBytes key).length + (strBytes value).length < 2 ^ 31 →
      StoreInv (setOp s key value ts).1) ∧
    (∀ (s : KvState) (key : String) (ts : Nat), StoreInv s →
      StoreInv (removeOp s key ts).1) ∧
    (∀ (s : KvState), StoreInv s →
      (compactOp s).2 = none ∧ StoreInv (compactOp s).1 ∧
        AllSetFrames (fileOf (compactOp s).1.files (s.current_generation + 1))) :=
  ⟨fun dir s hs h => openStore_inv dir s hs h,
   fun s key value ts hInv hts hseq hkv => (setOp_spec s key value ts hInv hts hseq hkv).2.1,
   fun s key ts hInv => (removeOp_spec s key ts hInv).1,
   fun s hInv =>
     ⟨(compactOp_inv s hInv).1, (compactOp_inv s hInv).2.1,
      (compactOp_inv s hInv).2.2.2.2.2⟩⟩

/-- Witness for `index_invariant_preserved` at concrete stores. -/
theorem index_invariant_preserved_witness :
    StoreInv emptyStore ∧
    StoreInv (setOp store1 "a" "b" 0).1 ∧
    StoreInv (removeOp store1 "k" 0).1 ∧
    StoreInv (compactOp store1).1 :=
  ⟨index_invariant_preserved.1 [] emptyStore List.Pairwise.nil rfl,
   index_invariant_preserved.2.1 store1 "a" "b" 0 (by decide) (by decide) (by decide) (by decide),
   index_invariant_preserved.2.2.1 store1 "k" 0 (by decide),
   (index_invariant_preserved.2.2.2 store1 (by decide)).2.1⟩

theorem compactOp_cs (s : KvState) :
    (compactOp s).1.current_sequence = s.current_sequence := by
  unfold compactOp
  dsimp only
  split <;> rfl

theorem applyOp_cs_stamped (s : KvState) (op : WriteOp) (h : stamped s op = true) :
    (applyOp s op).1.current_sequence = some (s.current_sequence.getD 0 + 1) := by
  cases op with
  | set k v ts =>
    show (setOp s k v ts).1.current_sequence = _
    unfold setOp
    dsimp only
    split
    · rw [compactOp_cs]
    · rfl
  | remove k ts =>
    show (removeOp s k ts).1.current_sequence = _
    unfold removeOp
    unfold stamped at h
    dsimp only at h
    cases hlk : idxLookup s.index k with
    | none =>
      rw [hlk] at h
      simp at h
    | some cp =>
      dsimp only
      split
      · rw [compactOp_cs]
      · rfl

theorem applyOp_not_stamped (s : KvState) (op : WriteOp) (h : stamped s op = false) :
    (applyOp s op).1 = s := by
  cases op with
  | set k v ts => simp [stamped] at h
  | remove k ts =>
    show (removeOp s k ts).1 = s
    unfold removeOp
    unfold stamped at h
    dsimp only at h
    cases hlk : idxLookup s.index k with
    | none => rfl
    | some cp =>
      rw [hlk] at h
      simp at h

theorem runStamps_mono : ∀ (ops : List WriteOp) (s : KvState),
    List.Chain' (· < ·) (runStamps s ops) ∧
    ∀ n ∈ runStamps s ops, s.current_sequence.getD 0 < n := by
  intro ops
  induction ops with
  | nil =>
    intro s
    refine ⟨List.chain'_nil, ?_⟩
    intro n hn
    simp [runStamps] at hn
  | cons op rest ih =>
    intro s
    unfold runStamps
    cases hst : stamped s op with
    | false =>
      rw [if_neg (by simp [hst])]
      rw [applyOp_not_stamped s op hst]
      exact ih s
    | true =>
      rw [if_pos (by simp [hst])]
      obtain ⟨hch, hgt⟩ := ih (applyOp s op).1
      have hcs : (applyOp s op).1.current_sequence.getD 0 = s.current_sequence.getD 0 + 1 := by
        rw [applyOp_cs_stamped s op hst]
        rfl
      refine ⟨?_, ?_⟩
      · rw [List.chain'_cons']
        refine ⟨?_, hch⟩
        intro b hb
        have hbmem : b ∈ runStamps (applyOp s op).1 rest := List.mem_of_mem_head? hb
        have := hgt b hbmem
        omega
      · intro n hn
        rcases List.mem_cons.mp hn with h | h
        · subst h
          omega
        · have := hgt n h
          omega

theorem foldl_max_init (l : List Nat) : ∀ a : Nat, l.foldl max a = max a (l.foldl max 0) := by
  induction l with
  | nil =>
    intro a
    simp
  | cons x xs ih =>
    intro a
    simp only [List.foldl_cons, Nat.zero_max]
    rw [ih (max a x), ih x, Nat.max_assoc]

theorem load_v2_parses (g : Nat) :
    ∀ (rem : List Nat) (pos : Nat) (ix : Index) (unc hi : Nat)
      (out : Index × Nat × Nat),
    load_v2 g rem pos ix unc hi = .ok out →
    ∃ cs frames trailing,
      rem = frames.flatten ++ trailing ∧ trailing.length < 4 ∧
      List.Forall₂ FrameFor cs frames ∧
      out.2.2 = (cs.map KvsCommand.sequence_number).foldl max hi := by
  intro rem pos ix unc hi
  induction rem, pos, ix, unc, hi using load_v2.induct g with
  | case1 rem pos ix unc hi h4 =>
    intro out hload
    rw [load_v2_stop g rem pos ix unc hi h4] at hload
    injection hload with hload
    subst hload
    exact ⟨[], [], rem, by simp, by omega, List.Forall₂.nil, rfl⟩
  | case2 rem pos ix unc hi h4 lb ml hov =>
    intro out hload
    rw [load_v2] at hload
    rw [if_neg h4] at hload
    dsimp only at hload
    rw [if_pos hov] at hload
    exact absurd hload (by simp)
  | case3 rem pos ix unc hi h4 lb ml hov mb hdec =>
    intro out hload
    rw [load_v2] at hload
    rw [if_neg h4] at hload
    dsimp only at hload
    rw [if_neg hov, hdec] at hload
    exact absurd hload (by simp)
  | case4 rem pos ix unc hi h4 lb ml hov mb cmd hdec hver =>
    intro out hload
    rw [load_v2] at hload
    rw [if_neg h4] at hload
    dsimp only at hload
    rw [if_neg hov, hdec] at hload
    dsimp only at hload
    rw [hver] at hload
    exact absurd hload (by simp)
  | case5 rem pos ix unc hi h4 lb ml hov mb cmd hdec hver hi1 st hcmd ins ih =>
    intro out hload
    have hv : cmd.verify_checksum = true := by
      cases hb : cmd.verify_checksum
      · exact absurd hb hver
      · rfl
    rw [load_v2_step_set g rem pos ix unc hi cmd st h4 hov hdec hv hcmd] at hload
    obtain ⟨cs, fr, tr, hflat, htr, hff, hout⟩ := ih out hload
    refine ⟨cmd :: cs,
      (rem.take 4 ++ (rem.drop 4).take (fromLE (rem.take 4))) :: fr, tr, ?_, htr, ?_, ?_⟩
    · rw [List.flatten_cons, List.append_assoc, List.append_assoc, ← hflat,
        List.take_append_drop, List.take_append_drop]
    · refine List.Forall₂.cons ?_ hff
      refine ⟨rem.take 4, (rem.drop 4).take (fromLE (rem.take 4)), rfl, ?_, ?_, hdec, hv⟩
      · rw [List.length_take]
        omega
      · rw [List.length_take]
        unfold_let ml lb at hov
        omega
    · rw [hout]
      unfold_let hi1
      rfl
  | case6 rem pos ix unc hi h4 lb ml hov mb cmd hdec hver hi1 r hcmd rm ih =>
    intro out hload
    have hv : cmd.verify_checksum = true := by
      cases hb : cmd.verify_checksum
      · exact absurd hb hver
      · rfl
    rw [load_v2_step_remove g rem pos ix unc hi cmd r h4 hov hdec hv hcmd] at hload
    obtain ⟨cs, fr, tr, hflat, htr, hff, hout⟩ := ih out hload
    refine ⟨cmd :: cs,
      (rem.take 4 ++ (rem.drop 4).take (fromLE (rem.take 4))) :: fr, tr, ?_, htr, ?_, ?_⟩
    · rw [List.flatten_cons, List.append_assoc, List.append_assoc, ← hflat,
        List.take_append_drop, List.take_append_drop]
    · refine List.Forall₂.cons ?_ hff
      refine ⟨rem.take 4, (rem.drop 4).take (fromLE (rem.take 4)), rfl, ?_, ?_, hdec, hv⟩
      · rw [List.length_take]
        omega
      · rw [List.length_take]
        unfold_let ml lb at hov
        omega
    · rw [hout]
      unfold_let hi1
      rfl
  | case7 rem pos ix unc hi h4 lb ml hov mb cmd hdec hver hcmd =>
    intro out hload
    rw [load_v2] at hload
    rw [if_neg h4] at hload
    dsimp only at hload
    rw [if_neg hov, hdec] at hload
    dsimp only at hload
    have hv : cmd.verify_checksum = true := by
      cases hb : cmd.verify_checksum
      · exact absurd hb hver
      · rfl
    rw [hv] at hload
    exact absurd hload (by simp [hcmd])

theorem loadAll_parses :
    ∀ (dirs : GenFiles) (ix : Index) (unc hi : Nat) (out : Index × Nat × Nat),
    loadAll dirs ix unc hi = .ok out →
    ∃ css : List (List KvsCommand),
      List.Forall₂ (fun p cs => ParsesTo p.2 cs) dirs css ∧
      out.2.2 = (css.flatten.map KvsCommand.sequence_number).foldl max hi := by
  intro dirs
  induction dirs with
  | nil =>
    intro ix unc hi out h
    unfold loadAll at h
    injection h with h
    subst h
    exact ⟨[], List.Forall₂.nil, rfl⟩
  | cons p rest ih =>
    obtain ⟨g, f⟩ := p
    intro ix unc hi out h
    unfold loadAll at h
    cases hl : load_v2 g f 0 ix 0 0 with
    | error e =>
      rw [hl] at h
      exact absurd h (by simp)
    | ok o =>
      obtain ⟨o1, o2, o3⟩ := o
      rw [hl] at h
      dsimp only at h
      obtain ⟨cs1, fr1, tr1, hflat1, htr1, hff1, hhi1⟩ := load_v2_parses g f 0 ix 0 0 _ hl
      have hhi1' : o3 = (cs1.map KvsCommand.sequence_number).foldl max 0 := hhi1
      obtain ⟨css, hffs, hout⟩ := ih o1 _ _ out h
      refine ⟨cs1 :: css, List.Forall₂.cons ⟨fr1, tr1, hflat1, htr1, hff1⟩ hffs, ?_⟩
      rw [hout, hhi1']
      rw [List.flatten_cons, List.map_append, List.foldl_append,
        foldl_max_init (cs1.map KvsCommand.sequence_number) hi]

theorem openStore_seeded (dir : GenFiles) (s : KvState)
    (h : openStore dir = .ok s) :
    ∃ css : List (List KvsCommand),
      List.Forall₂ (fun p cs => ParsesTo p.2 cs) dir css ∧
      s.current_sequence =
        some ((css.flatten.map KvsCommand.sequence_number).foldl max 0) := by
  unfold openStore at h
  cases hl : loadAll dir [] 0 0 with
  | error e =>
    rw [hl] at h
    exact absurd h (by simp)
  | ok out =>
    rw [hl] at h
    dsimp only at h
    injection h with h
    subst h
    obtain ⟨css, hffs, hout⟩ := loadAll_parses dir [] 0 0 out hl
    refine ⟨css, hffs, ?_⟩
    show some out.2.2 = _
    rw [hout]

/-- C8: across any run of writes on one engine instance the sequence numbers
stamped on the written records are strictly increasing and all exceed the
counter at the start of the run; every write that reaches the log advances
`current_sequence` to exactly `current_sequence + 1`, which is the stamp it
wrote; and `open` seeds the counter with the largest sequence number among
all records parsed during recovery (0 for an empty directory). -/
theorem sequence_numbers_strictly_increase :
    (∀ (s : KvState) (ops : List WriteOp),
      List.Chain' (· < ·) (runStamps s ops) ∧
      ∀ n ∈ runStamps s ops, s.current_sequence.getD 0 < n) ∧
    (∀ (s : KvState) (op : WriteOp), stamped s op = true →
      (applyOp s op).1.current_sequence = some (s.current_sequence.getD 0 + 1)) ∧
    (∀ (dir : GenFiles) (s : KvState), openStore dir = .ok s →
      ∃ css : List (List KvsCommand),
        List.Forall₂ (fun p cs => ParsesTo p.2 cs) dir css ∧
        s.current_sequence =
          some ((css.flatten.map KvsCommand.sequence_number).foldl max 0)) :=
  ⟨fun s ops => runStamps_mono ops s,
   fun s op h => applyOp_cs_stamped s op h,
   fun dir s h => openStore_seeded dir s h⟩

/-- Witness for `sequence_numbers_strictly_increase` on concrete runs. -/
theorem sequence_numbers_strictly_increase_witness :
    (List.Chain' (· < ·)
        (runStamps emptyStore [WriteOp.set "a" "b" 0, WriteOp.set "c" "d" 0]) ∧
      ∀ n ∈ runStamps emptyStore [WriteOp.set "a" "b" 0, WriteOp.set "c" "d" 0],
        emptyStore.current_sequence.getD 0 < n) ∧
    (applyOp store1 (WriteOp.set "x" "y" 0)).1.current_sequence =
      some (store1.current_sequence.getD 0 + 1) ∧
    (∃ css : List (List KvsCommand),
      List.Forall₂ (fun p cs => ParsesTo p.2 cs) ([] : GenFiles) css ∧
      emptyStore.current_sequence =
        some ((css.flatten.map KvsCommand.sequence_number).foldl max 0)) :=
  ⟨sequence_numbers_strictly_increase.1 emptyStore _,
   sequence_numbers_strictly_increase.2.1 store1 (WriteOp.set "x" "y" 0) (by decide),
   sequence_numbers_strictly_increase.2.2 [] emptyStore rfl⟩
